import Mathlib

/-!
# Verification of `VMT_Columns.py` (schema reconciler)

This file gives a shallow embedding of the core column-reconciliation logic of
`VMT_Columns.py` and proves/refutes the specification claims about it.

Modelling notes.

* A pandas `DataFrame` is modelled as an ordered list of named columns
  (`Table := List (String × List Cell)`), a cell being `Option String`
  (`none` models a missing value / `NaN`).  The standardized frame under
  construction additionally carries the length of its row index
  (`Build.idxLen`), because pandas assignment semantics depend on it.

* The embedding reproduces the pandas behaviours the source code relies on:
  - `df[name]` returns a single column when `name` occurs once among
    `df.columns`, and a multi-column `DataFrame` when it occurs several
    times; assigning such a multi-column frame to a single column
    (`df[key] = value`) raises `ValueError`
    ("Cannot set a DataFrame with multiple columns to the single column ...").
    This is modelled by the `Except PdError` results below.
  - Assigning a series to a frame aligns the series on the frame row
    index (`reindexList`); for the default `RangeIndex` used throughout the
    script this keeps the first `idxLen` entries and fills missing entries
    with `NaN`.
  - Assigning a non-empty series to a frame whose index is still empty sets
    the frame index from the series and reindexes already-present columns
    (pandas `DataFrame._ensure_valid_index`); assigning an *empty* series
    (`pd.Series(dtype=object)`) does not set the index.
  - `df[key] = value` overwrites an existing column `key` in place and
    otherwise appends a new column at the end (`upsert`).

* The regex substitution re.sub with pattern \.\d+$ and empty replacement
  is modelled with Python `re` semantics for `str` patterns: `\d` matches
  any Unicode decimal digit (category Nd, `isPyDigit`), and `$` matches at
  the end of the string or immediately before a string-final newline
  (`dropFinalNl`/`nlTail`); under this pattern at most one match can
  occur.

* File I/O (`read_file` / `save_file`) is out of scope, as in the spec: the
  reconciler is verified directly on in-memory tables.
-/

/-- A cell of a table: `none` models a missing value (pandas `NaN`). -/
abbrev Cell : Type := Option String

/-- A column table: an ordered sequence of named columns. -/
abbrev Table : Type := List (String × List Cell)

/-- The ordered list of column names of a table (`df.columns.tolist()`). -/
def colNames (t : Table) : List String := t.map Prod.fst

/-- The code-point ranges of Unicode general category Nd (decimal digit),
per DerivedGeneralCategory of Unicode 15.0 as shipped with CPython: the
set of characters matched by `\d` in a Python `str` regex. -/
def pyDigitRanges : List (Nat × Nat) :=
  [(0x30, 0x39), (0x660, 0x669), (0x6F0, 0x6F9), (0x7C0, 0x7C9),
   (0x966, 0x96F), (0x9E6, 0x9EF), (0xA66, 0xA6F), (0xAE6, 0xAEF),
   (0xB66, 0xB6F), (0xBE6, 0xBEF), (0xC66, 0xC6F), (0xCE6, 0xCEF),
   (0xD66, 0xD6F), (0xDE6, 0xDEF), (0xE50, 0xE59), (0xED0, 0xED9),
   (0xF20, 0xF29), (0x1040, 0x1049), (0x1090, 0x1099), (0x17E0, 0x17E9),
   (0x1810, 0x1819), (0x1946, 0x194F), (0x19D0, 0x19D9), (0x1A80, 0x1A89),
   (0x1A90, 0x1A99), (0x1B50, 0x1B59), (0x1BB0, 0x1BB9), (0x1C40, 0x1C49),
   (0x1C50, 0x1C59), (0xA620, 0xA629), (0xA8D0, 0xA8D9), (0xA900, 0xA909),
   (0xA9D0, 0xA9D9), (0xA9F0, 0xA9F9), (0xAA50, 0xAA59), (0xABF0, 0xABF9),
   (0xFF10, 0xFF19), (0x104A0, 0x104A9), (0x10D30, 0x10D39),
   (0x11066, 0x1106F), (0x110F0, 0x110F9), (0x11136, 0x1113F),
   (0x111D0, 0x111D9), (0x112F0, 0x112F9), (0x11450, 0x11459),
   (0x114D0, 0x114D9), (0x11650, 0x11659), (0x116C0, 0x116C9),
   (0x11730, 0x11739), (0x118E0, 0x118E9), (0x11950, 0x11959),
   (0x11C50, 0x11C59), (0x11D50, 0x11D59), (0x11DA0, 0x11DA9),
   (0x11F50, 0x11F59), (0x16A60, 0x16A69), (0x16AC0, 0x16AC9),
   (0x16B50, 0x16B59), (0x1D7CE, 0x1D7FF), (0x1E140, 0x1E149),
   (0x1E2F0, 0x1E2F9), (0x1E4F0, 0x1E4F9), (0x1E950, 0x1E959),
   (0x1FBF0, 0x1FBF9)]

/-- The character class `\d` of a Python `str` regex: any Unicode decimal
digit (category Nd), not just the ASCII digits. -/
def isPyDigit (c : Char) : Bool :=
  pyDigitRanges.any (fun p => decide (p.1 ≤ c.toNat ∧ c.toNat ≤ p.2))

/-- Drop the head of a reversed character list when it is a newline: in
Python, `$` matches at the end of the string or immediately before a
string-final newline, so the matching logic works on the string with one
final newline removed. -/
def dropFinalNl (r : List Char) : List Char :=
  if r.head? = some '\n' then r.tail else r

/-- The string-final newline skipped by Python `$`, as a reversed-list
prefix (empty when the string does not end in a newline). -/
def nlTail (r : List Char) : List Char :=
  if r.head? = some '\n' then ['\n'] else []

/-- Does the Python regex `\.\d+$` match the string?  With Python
semantics: `\d` matches any Unicode decimal digit (`isPyDigit`), and `$`
matches at the end of the string or immediately before a string-final
newline (`dropFinalNl`); the pattern can then match at most once. -/
def endsWithDotNum (s : String) : Bool :=
  let r := dropFinalNl s.data.reverse
  let ds := r.takeWhile isPyDigit
  !ds.isEmpty && ((r.drop ds.length).head? == some '.')

/-- The rewrite performed by the regex substitution in
`remove_column_numbering` (`src/VMT_Columns.py:57`), with Python `re`
semantics: remove one `.<digits>` suffix anchored at the end of the
string or immediately before a string-final newline, the digits being
Unicode decimal digits. -/
def subDotNumEnd (s : String) : String :=
  if endsWithDotNum s then
    let r0 := s.data.reverse
    let r := dropFinalNl r0
    let ds := r.takeWhile isPyDigit
    ⟨(nlTail r0 ++ r.drop (ds.length + 1)).reverse⟩
  else s

/-- Association-list update modelling Python `dict` assignment
(`column_mapping[col] = new_col`, `src/VMT_Columns.py:58`): overwrite an
existing key in place, otherwise append. -/
def assocSet : List (String × String) → String → String → List (String × String)
  | [], k, v => [(k, v)]
  | c :: rest, k, v => if c.1 = k then (k, v) :: rest else c :: assocSet rest k v

/-- Association-list lookup modelling Python `dict` access
(`column_mapping[col]`, `src/VMT_Columns.py:61`). -/
def lookupA : List (String × String) → String → Option String
  | [], _ => none
  | c :: rest, k => if c.1 = k then some c.2 else lookupA rest k

/-- Embedding of `remove_column_numbering` (`src/VMT_Columns.py:38-62`): build a dict
mapping each column name to the name with one trailing `.<digits>` suffix
removed, then rename the columns positionally, keeping the data. -/
def remove_column_numbering (t : Table) : Table :=
  let mapping := t.foldl (fun m c => assocSet m c.1 (subDotNumEnd c.1)) []
  t.map (fun c => ((lookupA mapping c.1).getD c.1, c.2))

/-- The pandas error raised by `df[key] = value` when `value` is a
multi-column `DataFrame` ("Cannot set a DataFrame with multiple columns to
the single column ..."), which is what `new_df[name]` yields when `name`
is a duplicated column label of `new_df`. -/
inductive PdError : Type
  | valueError : PdError
deriving DecidableEq

/-- The standardized `DataFrame` being built (`standardized_df`): its row
index length together with its ordered, uniquely-labelled columns. -/
structure Build : Type where
  idxLen : Nat
  cols : Table
deriving DecidableEq

/-- Reindex a series with default `RangeIndex` to a row index of length
`n`: keep the first `n` entries and fill the rest with `NaN`. -/
def reindexList (vs : List Cell) (n : Nat) : List Cell :=
  vs.take n ++ List.replicate (n - vs.length) none

/-- The `df[key] = value` column update: replace an existing column `key` in
place, otherwise append it at the end. -/
def upsert : Table → String → List Cell → Table
  | [], key, vs => [(key, vs)]
  | c :: rest, key, vs =>
    if c.1 = key then (key, vs) :: rest else c :: upsert rest key vs

/-- Assignment `standardized_df[key] = <series vs>` with pandas semantics: if the
frame index is still empty and the series is non-empty, the index is set
from the series and existing columns are reindexed
(`DataFrame._ensure_valid_index`); then the series is aligned to the
frame index and stored under `key`. -/
def setCol (b : Build) (key : String) (vs : List Cell) : Build :=
  let b2 : Build :=
    if b.idxLen = 0 ∧ vs.length ≠ 0 then
      ⟨vs.length, b.cols.map (fun c => (c.1, reindexList c.2 vs.length))⟩
    else b
  ⟨b2.idxLen, upsert b2.cols key (reindexList vs b2.idxLen)⟩

/-- The key `f"{col}_{i+1}"` used for instance `i` of a multi-instance
column (`src/VMT_Columns.py:135`). -/
def instKey (col : String) (i : Nat) : String :=
  col ++ "_" ++ Nat.repr (i + 1)

/-- The list `new_col_instances` resolved to column data: the data of the target
columns whose name equals `col`, in target order
(`src/VMT_Columns.py:121`). -/
def matchVals (target : Table) (col : String) : List (List Cell) :=
  (target.filter (fun c => decide (c.1 = col))).map Prod.snd

/-- The inner loop of `standardize_data` (`src/VMT_Columns.py:133-138`):
for each position `i` of a multi-instance column, copy the `i`-th target
instance if present, else add an empty column, under the key
`f"{col}_{i+1}"`.  Selecting `new_df[new_col_instances[i]]` selects by the
*name* `col` (all entries of `new_col_instances` are the same string), so
whenever `col` is duplicated in the target the selection is a multi-column
frame and the assignment raises `ValueError`. -/
def addInstances (col : String) (m : List (List Cell)) :
    List Nat → Build → Except PdError Build
  | [], b => Except.ok b
  | i :: rest, b =>
    if h : i < m.length then
      if 2 ≤ m.length then Except.error PdError.valueError
      else addInstances col m rest (setCol b (instKey col i) (m.get ⟨i, h⟩))
    else addInstances col m rest (setCol b (instKey col i) [])

/-- Processing of one unique base column (`src/VMT_Columns.py:119-138`):
collect the target columns named `col`, and either copy/create the single
column (no suffix) or loop over the required instances. -/
def processCol (baseNames : List String) (target : Table) (b : Build)
    (col : String) : Except PdError Build :=
  let m := matchVals target col
  let required := baseNames.count col
  if required = 1 then
    match m with
    | [] => Except.ok (setCol b col [])
    | [vs] => Except.ok (setCol b col vs)
    | _ => Except.error PdError.valueError
  else
    addInstances col m (List.range required) b

/-- The loop `for col in unique_columns` (`src/VMT_Columns.py:119`). -/
def buildCols (baseNames : List String) (target : Table) :
    List String → Build → Except PdError Build
  | [], b => Except.ok b
  | col :: rest, b =>
    match processCol baseNames target b col with
    | Except.ok b2 => buildCols baseNames target rest b2
    | Except.error e => Except.error e

/-- De-duplication of the base columns in first-occurrence order using a
seen-set (`src/VMT_Columns.py:110-116`). -/
def uniqueColsAux (seen : List String) : List String → List String
  | [] => []
  | c :: rest =>
    if c ∈ seen then uniqueColsAux seen rest
    else c :: uniqueColsAux (c :: seen) rest

/-- The list `unique_columns` derived from the base column list. -/
def uniqueColumns (cols : List String) : List String := uniqueColsAux [] cols

/-- The column keys that processing base column `col` assigns, in order:
the bare name for a single-instance column, `col_1 .. col_k` otherwise. -/
def schemeOf (baseNames : List String) (col : String) : List String :=
  if baseNames.count col = 1 then [col]
  else (List.range (baseNames.count col)).map (fun i => instKey col i)

/-- All column keys the build loop assigns, in order: the expected
pre-normalization column layout of the standardized frame. -/
def schemeKeys (baseNames : List String) : List String :=
  (uniqueColumns baseNames).flatMap (fun col => schemeOf baseNames col)

/-- Look up a column of the built frame by name (first occurrence). -/
def findCol : Table → String → Option (List Cell)
  | [], _ => none
  | c :: rest, k => if c.1 = k then some c.2 else findCol rest k

/-- Invariant of the frame under construction against a target with `n`
rows: either its row index is still empty and every stored column is
empty, or the index has been set to `n` and every stored column holds `n`
cells. -/
def StateOk (n : Nat) (b : Build) : Prop :=
  (b.idxLen = 0 ∧ ∀ c ∈ b.cols, c.2 = ([] : List Cell)) ∨
  (b.idxLen = n ∧ ∀ c ∈ b.cols, (c.2 : List Cell).length = n)

/-- The shortage check (`src/VMT_Columns.py:94-98`): for each base column
name (in first-occurrence order, the iteration order of the Python dict),
record `(name, required, actual)` when the name is absent from the target
or has strictly fewer instances there. -/
def missing_instances (baseNames targetNames : List String) :
    List (String × Nat × Nat) :=
  (uniqueColumns baseNames).filterMap (fun col =>
    let required := baseNames.count col
    let actual := targetNames.count col
    if actual = 0 ∨ actual < required then some (col, required, actual) else none)

/-- The column-building phase of `standardize_data`
(`src/VMT_Columns.py:106-138`), before suffix normalization. -/
def standardize_pre (base target : Table) : Except PdError Build :=
  buildCols (colNames base) target (uniqueColumns (colNames base)) ⟨0, []⟩

/-- Embedding of `standardize_data` (`src/VMT_Columns.py:64-141`) on in-memory tables:
the recorded shortages (lines 94-104) together with the standardized table
(lines 106-141), `Except.error` modelling a raised pandas exception caught
by the surrounding `try`/`except` (in which case no output is written).
The base table is consulted only for its column names (lines 77-83). -/
def standardize_data (base target : Table) :
    List (String × Nat × Nat) × Except PdError Table :=
  (missing_instances (colNames base) (colNames target),
   (standardize_pre base target).map (fun b => remove_column_numbering b.cols))

/-! ### Lemmas about the suffix normalizer -/

lemma takeWhile_append_not (p : Char → Bool) (d : List Char) (c : Char)
    (t : List Char) (hd : ∀ x ∈ d, p x = true) (hc : p c = false) :
    (d ++ c :: t).takeWhile p = d := by
  induction d with
  | nil => simp [List.takeWhile_cons, hc]
  | cons a as ih =>
    have ha : p a = true := hd a (by simp)
    simp only [List.cons_append, List.takeWhile_cons, ha, if_true]
    rw [ih (fun x hx => hd x (by simp [hx]))]

lemma reverse_append_cons (t d : List Char) (c : Char) :
    (t ++ c :: d).reverse = d.reverse ++ c :: t.reverse := by
  simp

lemma dropFinalNl_of_ne (r : List Char) (h : ¬ r.head? = some '\n') :
    dropFinalNl r = r := by
  simp [dropFinalNl, h]

lemma nlTail_of_ne (r : List Char) (h : ¬ r.head? = some '\n') :
    nlTail r = [] := by
  simp [nlTail, h]

/-- If `s` decomposes as `t ++ "." ++ d` with `d` a non-empty run of
Unicode digits (so the string ends hard in a digit), the regex guard
holds. -/
lemma endsWithDotNum_of_decomp (s : String) (t d : List Char)
    (hs : s.data = t ++ '.' :: d) (hd : d ≠ [])
    (hdig : ∀ c ∈ d, isPyDigit c = true) : endsWithDotNum s = true := by
  have hr : s.data.reverse = d.reverse ++ '.' :: t.reverse := by
    rw [hs]; exact reverse_append_cons t d '.'
  obtain ⟨c, cs, hc⟩ : ∃ c cs, d.reverse = c :: cs := by
    cases hdr : d.reverse with
    | nil => exact absurd (by simpa using hdr) hd
    | cons c cs => exact ⟨c, cs, rfl⟩
  have hcd : c ∈ d := List.mem_reverse.mp (by
    rw [hc]; exact List.mem_cons_self _ _)
  have hcnl : ¬ c = '\n' := by
    intro h
    have h2 := hdig c hcd
    rw [h] at h2
    exact absurd h2 (by decide)
  have hnl : ¬ s.data.reverse.head? = some '\n' := by
    rw [hr, hc, List.cons_append, List.head?_cons]
    intro h
    exact hcnl (Option.some.inj h)
  have hdf : dropFinalNl s.data.reverse = s.data.reverse :=
    dropFinalNl_of_ne _ hnl
  have htw : (dropFinalNl s.data.reverse).takeWhile isPyDigit = d.reverse := by
    rw [hdf, hr]
    exact takeWhile_append_not _ _ _ _
      (fun x hx => hdig x (List.mem_reverse.mp hx)) (by decide)
  have hdrop : (dropFinalNl s.data.reverse).drop d.reverse.length
      = '.' :: t.reverse := by
    rw [hdf, hr]; exact List.drop_left _ _
  have hne : d.reverse ≠ [] := by simpa using hd
  simp only [endsWithDotNum, htw, hdrop]
  simp [List.isEmpty_eq_false.mpr hne]

/-- Computation of the normalizer on a hard-end decomposed input: exactly
the final `.<digits>` suffix is removed. -/
lemma subDotNumEnd_of_decomp (s : String) (t d : List Char)
    (hs : s.data = t ++ '.' :: d) (hd : d ≠ [])
    (hdig : ∀ c ∈ d, isPyDigit c = true) : subDotNumEnd s = ⟨t⟩ := by
  have hr : s.data.reverse = d.reverse ++ '.' :: t.reverse := by
    rw [hs]; exact reverse_append_cons t d '.'
  obtain ⟨c, cs, hc⟩ : ∃ c cs, d.reverse = c :: cs := by
    cases hdr : d.reverse with
    | nil => exact absurd (by simpa using hdr) hd
    | cons c cs => exact ⟨c, cs, rfl⟩
  have hcd : c ∈ d := List.mem_reverse.mp (by
    rw [hc]; exact List.mem_cons_self _ _)
  have hcnl : ¬ c = '\n' := by
    intro h
    have h2 := hdig c hcd
    rw [h] at h2
    exact absurd h2 (by decide)
  have hnl : ¬ s.data.reverse.head? = some '\n' := by
    rw [hr, hc, List.cons_append, List.head?_cons]
    intro h
    exact hcnl (Option.some.inj h)
  have hdf : dropFinalNl s.data.reverse = s.data.reverse :=
    dropFinalNl_of_ne _ hnl
  have hnt : nlTail s.data.reverse = [] := nlTail_of_ne _ hnl
  have htw : (dropFinalNl s.data.reverse).takeWhile isPyDigit = d.reverse := by
    rw [hdf, hr]
    exact takeWhile_append_not _ _ _ _
      (fun x hx => hdig x (List.mem_reverse.mp hx)) (by decide)
  have hdd : (dropFinalNl s.data.reverse).drop (d.reverse.length + 1)
      = t.reverse := by
    rw [hdf, hr, ← List.drop_drop, List.drop_left]
    rfl
  have hguard := endsWithDotNum_of_decomp s t d hs hd hdig
  simp only [subDotNumEnd, hguard, if_true, hnt, htw, hdd]
  simp

/-- If `s` decomposes as `t ++ "." ++ d ++ "\n"` with `d` a non-empty run
of Unicode digits, the regex guard holds: Python `$` matches just before
the string-final newline. -/
lemma endsWithDotNum_of_decomp_nl (s : String) (t d : List Char)
    (hs : s.data = t ++ '.' :: (d ++ ['\n'])) (hd : d ≠ [])
    (hdig : ∀ c ∈ d, isPyDigit c = true) : endsWithDotNum s = true := by
  have hr : s.data.reverse = '\n' :: (d.reverse ++ '.' :: t.reverse) := by
    rw [hs, reverse_append_cons]
    simp
  have hdf : dropFinalNl s.data.reverse = d.reverse ++ '.' :: t.reverse := by
    rw [hr]; simp [dropFinalNl]
  have htw : (dropFinalNl s.data.reverse).takeWhile isPyDigit = d.reverse := by
    rw [hdf]
    exact takeWhile_append_not _ _ _ _
      (fun x hx => hdig x (List.mem_reverse.mp hx)) (by decide)
  have hdrop : (dropFinalNl s.data.reverse).drop d.reverse.length
      = '.' :: t.reverse := by
    rw [hdf]; exact List.drop_left _ _
  have hne : d.reverse ≠ [] := by simpa using hd
  simp only [endsWithDotNum, htw, hdrop]
  simp [List.isEmpty_eq_false.mpr hne]

/-- Computation of the normalizer on a decomposed input ending in a
newline: the `.<digits>` run before the final newline is removed and the
newline kept. -/
lemma subDotNumEnd_of_decomp_nl (s : String) (t d : List Char)
    (hs : s.data = t ++ '.' :: (d ++ ['\n'])) (hd : d ≠ [])
    (hdig : ∀ c ∈ d, isPyDigit c = true) :
    subDotNumEnd s = ⟨t ++ ['\n']⟩ := by
  have hr : s.data.reverse = '\n' :: (d.reverse ++ '.' :: t.reverse) := by
    rw [hs, reverse_append_cons]
    simp
  have hdf : dropFinalNl s.data.reverse = d.reverse ++ '.' :: t.reverse := by
    rw [hr]; simp [dropFinalNl]
  have hnt : nlTail s.data.reverse = ['\n'] := by
    rw [hr]; simp [nlTail]
  have htw : (dropFinalNl s.data.reverse).takeWhile isPyDigit = d.reverse := by
    rw [hdf]
    exact takeWhile_append_not _ _ _ _
      (fun x hx => hdig x (List.mem_reverse.mp hx)) (by decide)
  have hdd : (dropFinalNl s.data.reverse).drop (d.reverse.length + 1)
      = t.reverse := by
    rw [hdf, ← List.drop_drop, List.drop_left]
    rfl
  have hguard := endsWithDotNum_of_decomp_nl s t d hs hd hdig
  simp only [subDotNumEnd, hguard, if_true, hnt, htw, hdd]
  simp

lemma subDotNumEnd_of_not_ends (s : String)
    (h : endsWithDotNum s = false) : subDotNumEnd s = s := by
  simp [subDotNumEnd, h]

/-- When the regex guard holds on a reversed body, the body splits into a
non-empty digit run, a dot, and a remainder. -/
lemma guard_split (r : List Char)
    (h : (!(r.takeWhile isPyDigit).isEmpty &&
        ((r.drop (r.takeWhile isPyDigit).length).head? == some '.')) = true) :
    ∃ ds rest, r = ds ++ '.' :: rest ∧ ds ≠ [] ∧
      ∀ c ∈ ds, isPyDigit c = true := by
  simp only [Bool.and_eq_true, Bool.not_eq_eq_eq_not, Bool.not_false,
    beq_iff_eq] at h
  obtain ⟨h1, h2⟩ := h
  obtain ⟨u, hu⟩ := List.takeWhile_prefix (l := r) isPyDigit
  have hdig : ∀ x ∈ List.takeWhile isPyDigit r, isPyDigit x = true :=
    fun x hx => List.mem_takeWhile_imp hx
  generalize hds : List.takeWhile isPyDigit r = ds at h1 h2 hu hdig
  have hdropu : r.drop ds.length = u := by
    rw [← hu]; exact List.drop_left _ _
  rw [hdropu] at h2
  obtain ⟨c, rest, rfl⟩ : ∃ c rest, u = c :: rest := by
    cases u with
    | nil => simp at h2
    | cons c rest => exact ⟨c, rest, rfl⟩
  have hcdot : c = '.' := by simpa using h2
  subst hcdot
  exact ⟨ds, rest, hu.symm, by simpa [List.isEmpty_eq_false] using h1, hdig⟩

/-- Conversely, when the regex guard holds the string decomposes in one of
the two matched forms: a `.<digits>` run at the hard end, or one just
before a string-final newline. -/
lemma decomp_of_endsWithDotNum (s : String) (h : endsWithDotNum s = true) :
    (∃ t d : List Char, s.data = t ++ '.' :: d ∧ d ≠ [] ∧
        ∀ c ∈ d, isPyDigit c = true)
  ∨ (∃ t d : List Char, s.data = t ++ '.' :: (d ++ ['\n']) ∧ d ≠ [] ∧
        ∀ c ∈ d, isPyDigit c = true) := by
  have h2 : (!((dropFinalNl s.data.reverse).takeWhile isPyDigit).isEmpty &&
      (((dropFinalNl s.data.reverse).drop
          ((dropFinalNl s.data.reverse).takeWhile isPyDigit).length).head?
        == some '.')) = true := h
  obtain ⟨ds, rest, hr, hne, hdig⟩ := guard_split _ h2
  by_cases hnl : s.data.reverse.head? = some '\n'
  · right
    obtain ⟨r1, hr0⟩ : ∃ r1, s.data.reverse = '\n' :: r1 := by
      cases hh : s.data.reverse with
      | nil => rw [hh] at hnl; simp at hnl
      | cons c r1 =>
        rw [hh, List.head?_cons] at hnl
        exact ⟨r1, by rw [Option.some.inj hnl]⟩
    have hdf : dropFinalNl s.data.reverse = r1 := by
      rw [hr0]; simp [dropFinalNl]
    rw [hdf] at hr
    refine ⟨rest.reverse, ds.reverse, ?_, by simpa using hne,
      fun x hx => hdig x (List.mem_reverse.mp hx)⟩
    have hsd : s.data = ('\n' :: r1).reverse := by
      rw [← hr0]; exact (List.reverse_reverse s.data).symm
    rw [hsd, hr]
    simp
  · left
    have hdf : dropFinalNl s.data.reverse = s.data.reverse :=
      dropFinalNl_of_ne _ hnl
    rw [hdf] at hr
    refine ⟨rest.reverse, ds.reverse, ?_, by simpa using hne,
      fun x hx => hdig x (List.mem_reverse.mp hx)⟩
    have hsd : s.data = (ds ++ '.' :: rest).reverse := by
      rw [← hr]; exact (List.reverse_reverse s.data).symm
    rw [hsd, reverse_append_cons]

/-- The head of the reversed character data of a decomposed string is the
last character of the suffix `d`. -/
lemma head_reverse_mem (s : String) (t d : List Char)
    (hs : s.data = t ++ '.' :: d) (hd : d ≠ []) (c : Char)
    (hh : s.data.reverse.head? = some c) : c ∈ d := by
  have hr : s.data.reverse = d.reverse ++ '.' :: t.reverse := by
    rw [hs]; exact reverse_append_cons t d '.'
  obtain ⟨c2, cs, hc2⟩ : ∃ c2 cs, d.reverse = c2 :: cs := by
    cases hdr : d.reverse with
    | nil => exact absurd (by simpa using hdr) hd
    | cons c2 cs => exact ⟨c2, cs, rfl⟩
  rw [hr, hc2, List.cons_append, List.head?_cons] at hh
  have hmem : c2 ∈ d := List.mem_reverse.mp (by
    rw [hc2]; exact List.mem_cons_self _ _)
  rwa [Option.some.inj hh] at hmem

/-! ### Digits of `Nat.repr`: `"_<n>"` suffixes survive normalization -/

/-- Characters produced by `Nat.toDigitsCore` in base 10 satisfy any
property of the ten decimal digit characters. -/
lemma toDigitsCore_pred (P : Char → Prop)
    (hP : ∀ m, m < 10 → P (Nat.digitChar m)) (fuel : Nat) :
    ∀ (n : Nat) (ds : List Char), (∀ c ∈ ds, P c) →
      ∀ c ∈ Nat.toDigitsCore 10 fuel n ds, P c := by
  induction fuel with
  | zero =>
    intro n ds hds c hc
    exact hds c (by simpa [Nat.toDigitsCore] using hc)
  | succ fuel ih =>
    intro n ds hds c hc
    rw [Nat.toDigitsCore] at hc
    by_cases hz : n / 10 = 0
    · simp only [hz, if_true] at hc
      rcases List.mem_cons.mp hc with h | h
      · subst h; exact hP _ (Nat.mod_lt _ (by norm_num))
      · exact hds c h
    · simp only [hz, if_false] at hc
      refine ih _ _ ?_ c hc
      intro x hx
      rcases List.mem_cons.mp hx with h | h
      · subst h; exact hP _ (Nat.mod_lt _ (by norm_num))
      · exact hds x h

lemma digitChar_pyDigit (m : Nat) (h : m < 10) :
    isPyDigit (Nat.digitChar m) = true ∧ ¬ Nat.digitChar m = '\n' := by
  interval_cases m <;> exact ⟨by decide, by decide⟩

lemma repr_pyDigits (n : Nat) :
    ∀ c ∈ (Nat.repr n).data, isPyDigit c = true := by
  intro c hc
  have hdata : (Nat.repr n).data = Nat.toDigitsCore 10 (n + 1) n [] := rfl
  rw [hdata] at hc
  exact toDigitsCore_pred (fun c => isPyDigit c = true)
    (fun m hm => (digitChar_pyDigit m hm).1) _ _ _ (by simp) c hc

lemma repr_ne_nl (n : Nat) : ∀ c ∈ (Nat.repr n).data, ¬ c = '\n' := by
  intro c hc
  have hdata : (Nat.repr n).data = Nat.toDigitsCore 10 (n + 1) n [] := rfl
  rw [hdata] at hc
  exact toDigitsCore_pred (fun c => ¬ c = '\n')
    (fun m hm => (digitChar_pyDigit m hm).2) _ _ _ (by simp) c hc

/-- The `"_<n>"` suffixes generated for multi-instance columns are left in
place by the normalizer: the trailing digit run is preceded by `'_'`, not
by `'.'`, and such a name never ends in a newline. -/
lemma subDotNumEnd_underscore (s : String) (n : Nat) :
    subDotNumEnd (s ++ "_" ++ Nat.repr n) = s ++ "_" ++ Nat.repr n := by
  apply subDotNumEnd_of_not_ends
  have hdata : (s ++ "_" ++ Nat.repr n).data
      = s.data ++ '_' :: (Nat.repr n).data := by
    simp [String.data_append]
  have hr : (s ++ "_" ++ Nat.repr n).data.reverse
      = (Nat.repr n).data.reverse ++ '_' :: s.data.reverse := by
    rw [hdata]; exact reverse_append_cons _ _ _
  have hnl : ¬ (s ++ "_" ++ Nat.repr n).data.reverse.head? = some '\n' := by
    rw [hr]
    cases hrd : (Nat.repr n).data.reverse with
    | nil =>
      rw [List.nil_append, List.head?_cons]
      intro h
      exact absurd (Option.some.inj h) (by decide)
    | cons c cs =>
      rw [List.cons_append, List.head?_cons]
      intro h
      have hcmem : c ∈ (Nat.repr n).data := List.mem_reverse.mp (by
        rw [hrd]; exact List.mem_cons_self _ _)
      exact repr_ne_nl n c hcmem (Option.some.inj h)
  have hdf : dropFinalNl (s ++ "_" ++ Nat.repr n).data.reverse
      = (s ++ "_" ++ Nat.repr n).data.reverse := dropFinalNl_of_ne _ hnl
  have htw : (dropFinalNl (s ++ "_" ++ Nat.repr n).data.reverse).takeWhile
      isPyDigit = (Nat.repr n).data.reverse := by
    rw [hdf, hr]
    exact takeWhile_append_not _ _ _ _
      (fun x hx => repr_pyDigits n x (List.mem_reverse.mp hx)) (by decide)
  have hdrop : (dropFinalNl (s ++ "_" ++ Nat.repr n).data.reverse).drop
      (Nat.repr n).data.reverse.length = '_' :: s.data.reverse := by
    rw [hdf, hr]; exact List.drop_left _ _
  simp only [endsWithDotNum, htw, hdrop, List.head?_cons]
  rw [show ((some '_' == some ('.' : Char)) : Bool) = false from by decide,
    Bool.and_false]

/-! ### Claims about the suffix normalizer -/

lemma dot_mem_of_split (s t d : String) (hs : s = t ++ "." ++ d) :
    ('.' : Char) ∈ s.data := by
  have hdata : s.data = t.data ++ '.' :: d.data := by
    rw [hs]; simp [String.data_append]
  rw [hdata]
  simp

lemma dot_mem_of_split_nl (s t d : String)
    (hs : s = t ++ "." ++ d ++ "\n") : ('.' : Char) ∈ s.data := by
  have hdata : s.data = t.data ++ '.' :: (d.data ++ ['\n']) := by
    rw [hs]; simp [String.data_append]
  rw [hdata]
  simp

/-- Claim C5 counterexample: the original claim — one dot-digit suffix
anchored at the end of the string is removed "and nothing else" — is
false of the program.  `"Field.1\n"` admits no split `t ++ "." ++ d` with
`d` a non-empty digit run (the last character of any such `d` is the
newline), so the claim predicts it unchanged; but Python `$` also matches
just before a string-final newline, and the program rewrites it to
`"Field\n"`. -/
theorem claim_C5_cex :
    subDotNumEnd "Field.1\n" = "Field\n"
  ∧ ¬ ((∀ t d : String, "Field.1\n" = t ++ "." ++ d → d ≠ "" →
          ¬ (∀ c ∈ d.data, c.isDigit = true)) →
        subDotNumEnd "Field.1\n" = "Field.1\n") := by
  constructor
  · decide
  · intro hclaim
    have hhyp : ∀ t d : String, "Field.1\n" = t ++ "." ++ d → d ≠ "" →
        ¬ (∀ c ∈ d.data, c.isDigit = true) := by
      intro t d hs hd hdig
      have hsd : ("Field.1\n" : String).data = t.data ++ '.' :: d.data := by
        rw [hs]; simp [String.data_append]
      have hdne : d.data ≠ [] := fun hnil => hd (String.ext hnil)
      have hmem : '\n' ∈ d.data :=
        head_reverse_mem "Field.1\n" t.data d.data hsd hdne '\n' (by decide)
      exact absurd (hdig '\n' hmem) (by decide)
    exact absurd (hclaim hhyp) (by decide)

/-- Claim C5 (amended): the normalizer removes exactly one trailing
occurrence of a literal dot followed by one or more Unicode decimal
digits (Python `\d`), anchored at the end of the string or immediately
before a string-final newline (Python `$`), and nothing else: on a split
`t ++ "." ++ d` with `d` a non-empty digit run the result is `t`, on a
split `t ++ "." ++ d ++ "\n"` it is `t ++ "\n"`, and a name admitting
neither split is unchanged.  Only the final suffix is removed and
instance counts are never consulted. -/
theorem claim_C5 (s : String) :
    (∀ t d : String, s = t ++ "." ++ d → d ≠ "" →
        (∀ c ∈ d.data, isPyDigit c = true) → subDotNumEnd s = t)
  ∧ (∀ t d : String, s = t ++ "." ++ d ++ "\n" → d ≠ "" →
        (∀ c ∈ d.data, isPyDigit c = true) → subDotNumEnd s = t ++ "\n")
  ∧ ((∀ t d : String, s = t ++ "." ++ d → d ≠ "" →
        ¬ (∀ c ∈ d.data, isPyDigit c = true)) →
     (∀ t d : String, s = t ++ "." ++ d ++ "\n" → d ≠ "" →
        ¬ (∀ c ∈ d.data, isPyDigit c = true)) →
     subDotNumEnd s = s) := by
  refine ⟨?_, ?_, ?_⟩
  · intro t d hs hd hdig
    have hsd : s.data = t.data ++ '.' :: d.data := by
      rw [hs]; simp [String.data_append]
    have hdne : d.data ≠ [] := fun hnil => hd (String.ext hnil)
    exact subDotNumEnd_of_decomp s t.data d.data hsd hdne hdig
  · intro t d hs hd hdig
    have hsd : s.data = t.data ++ '.' :: (d.data ++ ['\n']) := by
      rw [hs]; simp [String.data_append]
    have hdne : d.data ≠ [] := fun hnil => hd (String.ext hnil)
    have h := subDotNumEnd_of_decomp_nl s t.data d.data hsd hdne hdig
    rw [h]
    exact String.ext (by simp [String.data_append])
  · intro hno1 hno2
    cases hguard : endsWithDotNum s with
    | false => exact subDotNumEnd_of_not_ends s hguard
    | true =>
      rcases decomp_of_endsWithDotNum s hguard with
        ⟨t, d, hsd, hdne, hdig⟩ | ⟨t, d, hsd, hdne, hdig⟩
      · refine absurd hdig (hno1 ⟨t⟩ ⟨d⟩ ?_ ?_)
        · exact String.ext (by simpa [String.data_append] using hsd)
        · exact fun hnil => hdne (congrArg String.data hnil)
      · refine absurd hdig (hno2 ⟨t⟩ ⟨d⟩ ?_ ?_)
        · exact String.ext (by simpa [String.data_append] using hsd)
        · exact fun hnil => hdne (congrArg String.data hnil)

/-- Witness for the amended C5 at concrete inputs: `"Field.12"` is
stripped to `"Field"`, `"Price.7\n"` to `"Price\n"` (suffix before a
string-final newline), and `"Field"` (no dot-digit suffix) is
unchanged. -/
theorem claim_C5_witness :
    subDotNumEnd "Field.12" = "Field"
  ∧ subDotNumEnd "Price.7\n" = "Price\n"
  ∧ subDotNumEnd "Field" = "Field" := by
  refine ⟨?_, ?_, ?_⟩
  · exact (claim_C5 "Field.12").1 "Field" "12" (by decide) (by decide)
      (by decide)
  · exact (claim_C5 "Price.7\n").2.1 "Price" "7" (by decide) (by decide)
      (by decide)
  · refine (claim_C5 "Field").2.2 ?_ ?_
    · intro t d hs _hd
      exact absurd (dot_mem_of_split "Field" t d hs) (by decide)
    · intro t d hs _hd
      exact absurd (dot_mem_of_split_nl "Field" t d hs) (by decide)

/-- Claim C6 counterexample: the suffix normalizer is not idempotent.  On
`"Field.1.2"` a first application yields `"Field.1"` and a second strips
further to `"Field"`. -/
theorem claim_C6_cex :
    ¬ subDotNumEnd (subDotNumEnd "Field.1.2") = subDotNumEnd "Field.1.2" := by
  decide

/-- Claim C6 (amended): the suffix normalizer is idempotent exactly on
names whose normalized form does not itself still end in a dot-digit
suffix in the Python sense (a Unicode-digit run after a dot at the hard
end or just before a string-final newline — `endsWithDotNum`); with two
stacked suffixes, such as `"Field.1.2"`, a second application strips one
more suffix. -/
theorem claim_C6 (s : String)
    (h : endsWithDotNum (subDotNumEnd s) = false) :
    subDotNumEnd (subDotNumEnd s) = subDotNumEnd s :=
  subDotNumEnd_of_not_ends _ h

/-- Witness for the amended C6 at `"Field.1"`. -/
theorem claim_C6_witness :
    endsWithDotNum (subDotNumEnd "Field.1") = false ∧
    subDotNumEnd (subDotNumEnd "Field.1") = subDotNumEnd "Field.1" :=
  ⟨by decide, claim_C6 "Field.1" (by decide)⟩

/-- Claim C2 (code bug): on the spec scenario — base columns
`["A", "B", "B"]`, target columns `["B", "A", "B"]` with the single row
`["b1", "a1", "b2"]` — the code does *not* produce the claimed table.
Since `"B"` is a duplicated column label of the target frame,
`new_df[new_col_instances[0]]` selects *both* `"B"` columns (a
two-column `DataFrame`), and assigning that to the single column `"B_1"`
raises `ValueError`, so the run aborts with no standardized output. -/
theorem claim_C2 :
    (standardize_data
      [("A", [some "x"]), ("B", [some "y"]), ("B", [some "z"])]
      [("B", [some "b1"]), ("A", [some "a1"]), ("B", [some "b2"])]).2
    = Except.error PdError.valueError := rfl

/-- Claim C10: the standardized output depends only on the base table
column-name sequence, never on its cell values (the source consults the
base frame only through `base_df.columns.tolist()`). -/
theorem claim_C10 (b1 b2 t : Table) (h : colNames b1 = colNames b2) :
    standardize_data b1 t = standardize_data b2 t := by
  unfold standardize_data standardize_pre
  rw [h]

/-- Witness for C10: two bases with equal column names but different data
give identical outputs. -/
theorem claim_C10_witness :
    standardize_data [("A", [some "x"])] [("A", [some "z"])]
    = standardize_data [("A", [some "y"])] [("A", [some "z"])] :=
  claim_C10 _ _ _ rfl

/-! ### The column-renaming dict of `remove_column_numbering` -/

lemma lookupA_assocSet_self (m : List (String × String)) (k v : String) :
    lookupA (assocSet m k v) k = some v := by
  induction m with
  | nil => simp [assocSet, lookupA]
  | cons c rest ih =>
    by_cases h : c.1 = k
    · simp [assocSet, h, lookupA]
    · simp [assocSet, h, lookupA, ih]

lemma lookupA_assocSet_ne (m : List (String × String)) (k v k2 : String)
    (hne : ¬ k = k2) : lookupA (assocSet m k v) k2 = lookupA m k2 := by
  induction m with
  | nil => simp [assocSet, lookupA, hne]
  | cons c rest ih =>
    by_cases h : c.1 = k
    · have h2 : ¬ c.1 = k2 := by rw [h]; exact hne
      simp [assocSet, h, lookupA, hne, h2]
    · simp only [assocSet, if_neg h, lookupA]
      by_cases h2 : c.1 = k2
      · simp [h2]
      · simp [h2, ih]

/-- Once the dict maps `k` to its normalized form, later insertions keep
that value (a later insertion at `k` re-inserts the same value). -/
lemma lookupA_colMap_stable (l : Table) (m : List (String × String))
    (k : String) (hm : lookupA m k = some (subDotNumEnd k)) :
    lookupA (l.foldl (fun m2 c => assocSet m2 c.1 (subDotNumEnd c.1)) m) k
      = some (subDotNumEnd k) := by
  induction l generalizing m with
  | nil => simpa using hm
  | cons c rest ih =>
    simp only [List.foldl_cons]
    apply ih
    by_cases h : c.1 = k
    · rw [h]; exact lookupA_assocSet_self _ _ _
    · rw [lookupA_assocSet_ne _ _ _ _ h]; exact hm

/-- Every column name of the table is mapped to its normalized form by the
dict built in `remove_column_numbering`. -/
lemma lookupA_colMap (l : Table) (m : List (String × String)) (k : String)
    (hk : k ∈ colNames l) :
    lookupA (l.foldl (fun m2 c => assocSet m2 c.1 (subDotNumEnd c.1)) m) k
      = some (subDotNumEnd k) := by
  induction l generalizing m with
  | nil => simp [colNames] at hk
  | cons c rest ih =>
    simp only [List.foldl_cons]
    by_cases h2 : k ∈ colNames rest
    · exact ih _ h2
    · have hkc : k = c.1 := by
        have : k = c.1 ∨ k ∈ colNames rest := by
          simpa [colNames] using hk
        tauto
      apply lookupA_colMap_stable
      rw [hkc]; exact lookupA_assocSet_self _ _ _

/-- The function `remove_column_numbering` is pointwise suffix normalization of the
column names, keeping the data. -/
lemma remove_column_numbering_spec (t : Table) :
    remove_column_numbering t = t.map (fun c => (subDotNumEnd c.1, c.2)) := by
  unfold remove_column_numbering
  apply List.map_congr_left
  intro c hc
  have hk : c.1 ∈ colNames t := List.mem_map_of_mem Prod.fst hc
  rw [lookupA_colMap t [] c.1 hk]
  rfl

lemma rcn_map_snd (t : Table) :
    (remove_column_numbering t).map Prod.snd = t.map Prod.snd := by
  rw [remove_column_numbering_spec]
  simp [List.map_map, Function.comp]

lemma rcn_names (t : Table) :
    colNames (remove_column_numbering t) = (colNames t).map subDotNumEnd := by
  rw [remove_column_numbering_spec]
  simp [colNames, List.map_map, Function.comp]

lemma rcn_length (t : Table) :
    (remove_column_numbering t).length = t.length := by
  rw [remove_column_numbering_spec, List.length_map]

/-! ### Basic properties of the build primitives -/

lemma colNames_cons (c : String × List Cell) (rest : Table) :
    colNames (c :: rest) = c.1 :: colNames rest := rfl

lemma colNames_append (t1 t2 : Table) :
    colNames (t1 ++ t2) = colNames t1 ++ colNames t2 := by
  simp [colNames]

lemma mem_uniqueColsAux (seen l : List String) (x : String) :
    x ∈ uniqueColsAux seen l ↔ x ∈ l ∧ x ∉ seen := by
  induction l generalizing seen with
  | nil => simp [uniqueColsAux]
  | cons c rest ih =>
    by_cases h : c ∈ seen
    · simp only [uniqueColsAux, if_pos h, ih, List.mem_cons]
      constructor
      · rintro ⟨hx, hs⟩; exact ⟨Or.inr hx, hs⟩
      · rintro ⟨hx | hx, hs⟩
        · exact absurd (hx ▸ h) hs
        · exact ⟨hx, hs⟩
    · simp only [uniqueColsAux, if_neg h, List.mem_cons, ih, List.mem_cons]
      constructor
      · rintro (hx | ⟨hx, hs⟩)
        · exact ⟨Or.inl hx, fun hm => h (hx ▸ hm)⟩
        · exact ⟨Or.inr hx, fun hm => hs (Or.inr hm)⟩
      · rintro ⟨hx | hx, hs⟩
        · exact Or.inl hx
        · by_cases hxc : x = c
          · exact Or.inl hxc
          · exact Or.inr ⟨hx, fun hm => hm.elim hxc hs⟩

lemma mem_uniqueColumns (l : List String) (x : String) :
    x ∈ uniqueColumns l ↔ x ∈ l := by
  simp [uniqueColumns, mem_uniqueColsAux]

lemma nodup_uniqueColsAux (l : List String) :
    ∀ seen : List String, (uniqueColsAux seen l).Nodup := by
  induction l with
  | nil => intro seen; simp [uniqueColsAux]
  | cons c rest ih =>
    intro seen
    by_cases h : c ∈ seen
    · simpa [uniqueColsAux, if_pos h] using ih seen
    · rw [uniqueColsAux, if_neg h]
      refine List.nodup_cons.mpr ⟨?_, ih _⟩
      intro hm
      exact ((mem_uniqueColsAux _ _ _).mp hm).2 (List.mem_cons_self _ _)

lemma nodup_uniqueColumns (l : List String) : (uniqueColumns l).Nodup :=
  nodup_uniqueColsAux l []

lemma count_pos_of_mem (l : List String) (x : String) (h : x ∈ l) :
    1 ≤ l.count x :=
  List.count_pos_iff.mpr h

lemma mem_upsert (cols : Table) (key : String) (vs : List Cell)
    (c : String × List Cell) (hc : c ∈ upsert cols key vs) :
    c = (key, vs) ∨ c ∈ cols := by
  induction cols with
  | nil => simpa [upsert] using hc
  | cons c0 rest ih =>
    by_cases h : c0.1 = key
    · rw [upsert, if_pos h] at hc
      rcases List.mem_cons.mp hc with h2 | h2
      · exact Or.inl h2
      · exact Or.inr (List.mem_cons_of_mem _ h2)
    · rw [upsert, if_neg h] at hc
      rcases List.mem_cons.mp hc with h2 | h2
      · exact Or.inr (h2 ▸ List.mem_cons_self _ _)
      · rcases ih h2 with h3 | h3
        · exact Or.inl h3
        · exact Or.inr (List.mem_cons_of_mem _ h3)

lemma upsert_of_not_mem (cols : Table) (key : String) (vs : List Cell)
    (h : key ∉ colNames cols) : upsert cols key vs = cols ++ [(key, vs)] := by
  induction cols with
  | nil => rfl
  | cons c rest ih =>
    have hne : ¬ c.1 = key := fun he => h (by simp [colNames_cons, he])
    rw [upsert, if_neg hne, List.cons_append]
    rw [ih (fun hm => h (by simp [colNames_cons, hm]))]

lemma colNames_upsert_of_mem (cols : Table) (key : String) (vs : List Cell)
    (h : key ∈ colNames cols) :
    colNames (upsert cols key vs) = colNames cols := by
  induction cols with
  | nil => simp [colNames] at h
  | cons c rest ih =>
    by_cases hc : c.1 = key
    · rw [upsert, if_pos hc, colNames_cons, colNames_cons, hc]
    · have h2 : key ∈ colNames rest := by
        rcases List.mem_cons.mp h with h3 | h3
        · exact absurd h3.symm hc
        · exact h3
      rw [upsert, if_neg hc, colNames_cons, colNames_cons, ih h2]

lemma findCol_upsert_self (cols : Table) (key : String) (vs : List Cell) :
    findCol (upsert cols key vs) key = some vs := by
  induction cols with
  | nil => simp [upsert, findCol]
  | cons c rest ih =>
    by_cases h : c.1 = key
    · simp [upsert, h, findCol]
    · simp [upsert, h, findCol, ih]

lemma findCol_upsert_ne (cols : Table) (key k2 : String) (vs : List Cell)
    (h : ¬ key = k2) :
    findCol (upsert cols key vs) k2 = findCol cols k2 := by
  induction cols with
  | nil => simp [upsert, findCol, h]
  | cons c rest ih =>
    by_cases hc : c.1 = key
    · have h2 : ¬ c.1 = k2 := by rw [hc]; exact h
      simp only [upsert, if_pos hc, findCol, if_neg h, if_neg h2]
    · simp only [upsert, if_neg hc, findCol]
      by_cases h2 : c.1 = k2
      · simp only [if_pos h2]
      · simp only [if_neg h2]; exact ih

lemma reindexList_length (vs : List Cell) (n : Nat) :
    (reindexList vs n).length = n := by
  simp only [reindexList, List.length_append, List.length_take,
    List.length_replicate]
  omega

lemma reindexList_allNone (vs : List Cell) (n : Nat)
    (h : ∀ x ∈ vs, x = none) : ∀ x ∈ reindexList vs n, x = none := by
  intro x hx
  rcases List.mem_append.mp hx with h2 | h2
  · exact h x (List.take_subset _ _ h2)
  · exact (List.mem_replicate.mp h2).2

lemma reindexList_self (vs : List Cell) : reindexList vs vs.length = vs := by
  simp [reindexList]

lemma colNames_map_reindex (cols : Table) (n : Nat) :
    colNames (cols.map (fun c => (c.1, reindexList c.2 n))) = colNames cols := by
  simp [colNames, List.map_map, Function.comp]

lemma setCol_cols (b : Build) (key : String) (vs : List Cell) :
    (setCol b key vs).cols =
    if b.idxLen = 0 ∧ vs.length ≠ 0 then
      upsert (b.cols.map (fun c => (c.1, reindexList c.2 vs.length))) key
        (reindexList vs vs.length)
    else upsert b.cols key (reindexList vs b.idxLen) := by
  by_cases hg : b.idxLen = 0 ∧ vs.length ≠ 0
  · rw [if_pos hg]; simp only [setCol, if_pos hg]
  · rw [if_neg hg]; simp only [setCol, if_neg hg]

lemma setCol_idxLen (b : Build) (key : String) (vs : List Cell) :
    (setCol b key vs).idxLen =
    if b.idxLen = 0 ∧ vs.length ≠ 0 then vs.length else b.idxLen := by
  by_cases hg : b.idxLen = 0 ∧ vs.length ≠ 0
  · rw [if_pos hg]; simp only [setCol, if_pos hg]
  · rw [if_neg hg]; simp only [setCol, if_neg hg]

lemma colNames_setCol_of_not_mem (b : Build) (key : String) (vs : List Cell)
    (h : key ∉ colNames b.cols) :
    colNames (setCol b key vs).cols = colNames b.cols ++ [key] := by
  rw [setCol_cols]
  by_cases hg : b.idxLen = 0 ∧ vs.length ≠ 0
  · rw [if_pos hg, upsert_of_not_mem _ _ _ (by
      rw [colNames_map_reindex]; exact h)]
    rw [colNames_append, colNames_map_reindex]
    rfl
  · rw [if_neg hg, upsert_of_not_mem _ _ _ h, colNames_append]
    rfl

lemma colNames_setCol_of_mem (b : Build) (key : String) (vs : List Cell)
    (h : key ∈ colNames b.cols) :
    colNames (setCol b key vs).cols = colNames b.cols := by
  rw [setCol_cols]
  by_cases hg : b.idxLen = 0 ∧ vs.length ≠ 0
  · rw [if_pos hg, colNames_upsert_of_mem _ _ _ (by
      rw [colNames_map_reindex]; exact h)]
    rw [colNames_map_reindex]
  · rw [if_neg hg, colNames_upsert_of_mem _ _ _ h]

lemma mem_colNames_setCol_old (b : Build) (key : String) (vs : List Cell)
    (x : String) (h : x ∈ colNames b.cols) :
    x ∈ colNames (setCol b key vs).cols := by
  by_cases hk : key ∈ colNames b.cols
  · rw [colNames_setCol_of_mem _ _ _ hk]; exact h
  · rw [colNames_setCol_of_not_mem _ _ _ hk]
    exact List.mem_append_left _ h

lemma mem_colNames_setCol_key (b : Build) (key : String) (vs : List Cell) :
    key ∈ colNames (setCol b key vs).cols := by
  by_cases hk : key ∈ colNames b.cols
  · rw [colNames_setCol_of_mem _ _ _ hk]; exact hk
  · rw [colNames_setCol_of_not_mem _ _ _ hk]
    exact List.mem_append_right _ (List.mem_cons_self _ _)

/-! ### Matched target instances -/

lemma matchVals_mem_length (target : Table) (col : String) (n : Nat)
    (hwf : ∀ c ∈ target, (c.2 : List Cell).length = n) :
    ∀ u ∈ matchVals target col, u.length = n := by
  intro u hu
  obtain ⟨c, hc, rfl⟩ := List.mem_map.mp hu
  exact hwf c (List.mem_filter.mp hc).1

lemma matchVals_cons (c : String × List Cell) (rest : Table) (col : String) :
    matchVals (c :: rest) col
      = if c.1 = col then c.2 :: matchVals rest col
        else matchVals rest col := by
  by_cases h : c.1 = col
  · simp [matchVals, List.filter_cons, h]
  · simp [matchVals, List.filter_cons, h]

lemma matchVals_length (target : Table) (col : String) :
    (matchVals target col).length = (colNames target).count col := by
  induction target with
  | nil => simp [matchVals, colNames]
  | cons c rest ih =>
    by_cases h : c.1 = col
    · rw [matchVals_cons, if_pos h, colNames_cons, List.count_cons, h]
      simp [ih]
    · rw [matchVals_cons, if_neg h, colNames_cons, List.count_cons]
      simp [ih, h]

lemma matchVals_ne_nil (target : Table) (col : String)
    (h : col ∈ colNames target) : matchVals target col ≠ [] := by
  intro hnil
  have h1 := matchVals_length target col
  rw [hnil] at h1
  simp only [List.length_nil] at h1
  have h2 := count_pos_of_mem _ _ h
  omega

/-! ### The row-length invariant of the build -/

lemma stateOk_start (n : Nat) : StateOk n ⟨0, []⟩ :=
  Or.inl ⟨rfl, by simp⟩

lemma setCol_stateOk (n : Nat) (b : Build) (key : String) (vs : List Cell)
    (hb : StateOk n b) (hvs : vs = [] ∨ vs.length = n) :
    StateOk n (setCol b key vs) := by
  by_cases hg : b.idxLen = 0 ∧ vs.length ≠ 0
  · have hn : vs.length = n := by
      rcases hvs with h | h
      · exact absurd (by rw [h]; rfl) hg.2
      · exact h
    refine Or.inr ⟨?_, ?_⟩
    · rw [setCol_idxLen, if_pos hg, hn]
    · intro c hc
      rw [setCol_cols, if_pos hg] at hc
      rcases mem_upsert _ _ _ _ hc with h2 | h2
      · rw [h2]; simp [reindexList_length, hn]
      · obtain ⟨c0, _, rfl⟩ := List.mem_map.mp h2
        simp [reindexList_length, hn]
  · rcases hb with ⟨hidx, hcols⟩ | ⟨hidx, hcols⟩
    · refine Or.inl ⟨?_, ?_⟩
      · rw [setCol_idxLen, if_neg hg]; exact hidx
      · intro c hc
        rw [setCol_cols, if_neg hg] at hc
        rcases mem_upsert _ _ _ _ hc with h2 | h2
        · rw [h2]
          have hlen : (reindexList vs b.idxLen).length = 0 := by
            rw [reindexList_length, hidx]
          exact List.length_eq_zero.mp hlen
        · exact hcols c h2
    · refine Or.inr ⟨?_, ?_⟩
      · rw [setCol_idxLen, if_neg hg]; exact hidx
      · intro c hc
        rw [setCol_cols, if_neg hg] at hc
        rcases mem_upsert _ _ _ _ hc with h2 | h2
        · rw [h2]; simp [reindexList_length, hidx]
        · exact hcols c h2

lemma setCol_idxLen_eq (n : Nat) (b : Build) (key : String) (vs : List Cell)
    (hb : b.idxLen = n) (hvs : vs = [] ∨ vs.length = n) :
    (setCol b key vs).idxLen = n := by
  rw [setCol_idxLen]
  by_cases hg : b.idxLen = 0 ∧ vs.length ≠ 0
  · rw [if_pos hg]
    rcases hvs with h | h
    · exact absurd (by rw [h]; rfl) hg.2
    · exact h
  · rw [if_neg hg]; exact hb

lemma setCol_idxLen_copy (n : Nat) (b : Build) (key : String)
    (vs : List Cell) (hb : StateOk n b) (hlen : vs.length = n)
    (hn : n ≠ 0) : (setCol b key vs).idxLen = n := by
  rcases hb with ⟨hidx, _⟩ | ⟨hidx, _⟩
  · rw [setCol_idxLen, if_pos ⟨hidx, by rw [hlen]; exact hn⟩]; exact hlen
  · exact setCol_idxLen_eq n b key vs hidx (Or.inr hlen)

/-! ### The instance loop -/

lemma addInstances_nil_ok (col : String) (m : List (List Cell)) (b b2 : Build)
    (hok : addInstances col m [] b = Except.ok b2) : b2 = b := by
  simp only [addInstances] at hok
  exact (Except.ok.inj hok).symm

/-- One step of the instance loop: under a successful run the head index
`i` is assigned either its copied target instance (when `i` is in range)
or a fresh empty column. -/
lemma addInstances_cons (col : String) (m : List (List Cell)) (i : Nat)
    (rest : List Nat) (b b2 : Build)
    (hok : addInstances col m (i :: rest) b = Except.ok b2) :
    ∃ vs : List Cell,
      ((m.length ≤ i ∧ vs = []) ∨ (i < m.length ∧ vs ∈ m)) ∧
      addInstances col m rest (setCol b (instKey col i) vs) = Except.ok b2 := by
  simp only [addInstances] at hok
  by_cases hi : i < m.length
  · by_cases h2 : 2 ≤ m.length
    · rw [dif_pos hi, if_pos h2] at hok; cases hok
    · rw [dif_pos hi, if_neg h2] at hok
      exact ⟨_, Or.inr ⟨hi, List.get_mem _ _ _⟩, hok⟩
  · rw [dif_neg hi] at hok
    exact ⟨[], Or.inl ⟨Nat.le_of_not_lt hi, rfl⟩, hok⟩

lemma addInstances_stateOk (n : Nat) (col : String) (m : List (List Cell))
    (hm : ∀ u ∈ m, u.length = n) :
    ∀ (is : List Nat) (b b2 : Build), StateOk n b →
      addInstances col m is b = Except.ok b2 → StateOk n b2 := by
  intro is
  induction is with
  | nil =>
    intro b b2 hb hok
    rw [addInstances_nil_ok col m b b2 hok]; exact hb
  | cons i rest ih =>
    intro b b2 hb hok
    obtain ⟨vs, hvs, hok2⟩ := addInstances_cons _ _ _ _ _ _ hok
    refine ih _ _ (setCol_stateOk n b _ vs hb ?_) hok2
    rcases hvs with ⟨_, rfl⟩ | ⟨_, hmem⟩
    · exact Or.inl rfl
    · exact Or.inr (hm _ hmem)

lemma addInstances_idxLen_eq (n : Nat) (col : String) (m : List (List Cell))
    (hm : ∀ u ∈ m, u.length = n) :
    ∀ (is : List Nat) (b b2 : Build), b.idxLen = n →
      addInstances col m is b = Except.ok b2 → b2.idxLen = n := by
  intro is
  induction is with
  | nil =>
    intro b b2 hb hok
    rw [addInstances_nil_ok col m b b2 hok]; exact hb
  | cons i rest ih =>
    intro b b2 hb hok
    obtain ⟨vs, hvs, hok2⟩ := addInstances_cons _ _ _ _ _ _ hok
    refine ih _ _ (setCol_idxLen_eq n b _ vs hb ?_) hok2
    rcases hvs with ⟨_, rfl⟩ | ⟨_, hmem⟩
    · exact Or.inl rfl
    · exact Or.inr (hm _ hmem)

/-- Under a successful run whose first processed position `0` has a target
instance to copy (with `n ≠ 0` rows), the frame index ends up with
exactly `n` rows. -/
lemma addInstances_idx_set (n : Nat) (col : String) (m : List (List Cell))
    (hm : ∀ u ∈ m, u.length = n) (hne : m ≠ []) (hn : n ≠ 0)
    (rest : List Nat) (b b2 : Build) (hb : StateOk n b)
    (hok : addInstances col m (0 :: rest) b = Except.ok b2) :
    b2.idxLen = n := by
  obtain ⟨vs, hvs, hok2⟩ := addInstances_cons _ _ _ _ _ _ hok
  have hvm : vs ∈ m := by
    rcases hvs with ⟨hle, _⟩ | ⟨_, h⟩
    · have := List.length_pos.mpr hne
      omega
    · exact h
  have hidx : (setCol b (instKey col 0) vs).idxLen = n :=
    setCol_idxLen_copy n b _ vs hb (hm _ hvm) hn
  exact addInstances_idxLen_eq n col m hm rest _ b2 hidx hok2

lemma addInstances_mem_names (col : String) (m : List (List Cell)) :
    ∀ (is : List Nat) (b b2 : Build) (x : String), x ∈ colNames b.cols →
      addInstances col m is b = Except.ok b2 → x ∈ colNames b2.cols := by
  intro is
  induction is with
  | nil =>
    intro b b2 x hx hok
    rw [addInstances_nil_ok col m b b2 hok]; exact hx
  | cons i rest ih =>
    intro b b2 x hx hok
    obtain ⟨vs, _, hok2⟩ := addInstances_cons _ _ _ _ _ _ hok
    exact ih _ _ x (mem_colNames_setCol_old _ _ _ _ hx) hok2

lemma addInstances_assigned (col : String) (m : List (List Cell)) :
    ∀ (is : List Nat) (b b2 : Build),
      addInstances col m is b = Except.ok b2 →
      ∀ i ∈ is, instKey col i ∈ colNames b2.cols := by
  intro is
  induction is with
  | nil => intro b b2 _ i hi; simp at hi
  | cons j rest ih =>
    intro b b2 hok i hi
    obtain ⟨vs, _, hok2⟩ := addInstances_cons _ _ _ _ _ _ hok
    rcases List.mem_cons.mp hi with h | h
    · subst h
      exact addInstances_mem_names col m rest _ b2 _
        (mem_colNames_setCol_key _ _ _) hok2
    · exact ih _ _ hok2 i h

lemma addInstances_names (col : String) (m : List (List Cell)) :
    ∀ (is : List Nat) (b b2 : Build),
      (∀ i ∈ is, instKey col i ∉ colNames b.cols) →
      (is.map (instKey col)).Nodup →
      addInstances col m is b = Except.ok b2 →
      colNames b2.cols = colNames b.cols ++ is.map (instKey col) := by
  intro is
  induction is with
  | nil =>
    intro b b2 _ _ hok
    rw [addInstances_nil_ok col m b b2 hok]; simp
  | cons i rest ih =>
    intro b b2 hfresh hnodup hok
    obtain ⟨vs, _, hok2⟩ := addInstances_cons _ _ _ _ _ _ hok
    have hn1 : colNames (setCol b (instKey col i) vs).cols
        = colNames b.cols ++ [instKey col i] :=
      colNames_setCol_of_not_mem _ _ _ (hfresh i (List.mem_cons_self _ _))
    have hnd : (∀ x ∈ rest, ¬ instKey col x = instKey col i) ∧
        (rest.map (instKey col)).Nodup := by simpa using hnodup
    have hfresh2 : ∀ j ∈ rest,
        instKey col j ∉ colNames (setCol b (instKey col i) vs).cols := by
      intro j hj hmem
      rw [hn1] at hmem
      rcases List.mem_append.mp hmem with h2 | h2
      · exact hfresh j (List.mem_cons_of_mem _ hj) h2
      · have h3 : instKey col j = instKey col i := by simpa using h2
        exact hnd.1 j hj h3
    have hres := ih _ b2 hfresh2 hnd.2 hok2
    rw [hres, hn1, List.append_assoc]
    simp

lemma addInstances_ok_of_le (col : String) (m : List (List Cell))
    (hle : m.length ≤ 1) :
    ∀ (is : List Nat) (b : Build),
      ∃ b2, addInstances col m is b = Except.ok b2 := by
  intro is
  induction is with
  | nil => intro b; exact ⟨b, rfl⟩
  | cons i rest ih =>
    intro b
    by_cases hi : i < m.length
    · have h2 : ¬ 2 ≤ m.length := by omega
      obtain ⟨b2, h⟩ := ih (setCol b (instKey col i) (m.get ⟨i, hi⟩))
      refine ⟨b2, ?_⟩
      simp only [addInstances]
      rw [dif_pos hi, if_neg h2]
      exact h
    · obtain ⟨b2, h⟩ := ih (setCol b (instKey col i) [])
      refine ⟨b2, ?_⟩
      simp only [addInstances]
      rw [dif_neg hi]
      exact h

lemma addInstances_err (col : String) (m : List (List Cell))
    (h2 : 2 ≤ m.length) (rest : List Nat) (b : Build) :
    addInstances col m (0 :: rest) b = Except.error PdError.valueError := by
  have hi : 0 < m.length := by omega
  simp only [addInstances]
  rw [dif_pos hi, if_pos h2]

/-! ### Processing one unique base column -/

lemma processCol_eq (baseNames : List String) (target : Table) (b : Build)
    (col : String) :
    processCol baseNames target b col =
    if baseNames.count col = 1 then
      match matchVals target col with
      | [] => Except.ok (setCol b col [])
      | [vs] => Except.ok (setCol b col vs)
      | _ => Except.error PdError.valueError
    else
      addInstances col (matchVals target col)
        (List.range (baseNames.count col)) b := rfl

/-- Case analysis of a successful `processCol` run. -/
lemma processCol_cases (baseNames : List String) (target : Table)
    (b b2 : Build) (col : String)
    (hok : processCol baseNames target b col = Except.ok b2) :
    (baseNames.count col = 1 ∧
      ((matchVals target col = [] ∧ b2 = setCol b col []) ∨
       (∃ vs, matchVals target col = [vs] ∧ b2 = setCol b col vs)))
  ∨ (¬ baseNames.count col = 1 ∧
      addInstances col (matchVals target col)
        (List.range (baseNames.count col)) b = Except.ok b2) := by
  rw [processCol_eq] at hok
  by_cases h1 : baseNames.count col = 1
  · rw [if_pos h1] at hok
    refine Or.inl ⟨h1, ?_⟩
    cases hm : matchVals target col with
    | nil =>
      rw [hm] at hok
      exact Or.inl ⟨rfl, (Except.ok.inj hok).symm⟩
    | cons v rest =>
      cases rest with
      | nil =>
        rw [hm] at hok
        exact Or.inr ⟨v, rfl, (Except.ok.inj hok).symm⟩
      | cons v2 rest2 => rw [hm] at hok; cases hok
  · rw [if_neg h1] at hok
    exact Or.inr ⟨h1, hok⟩

lemma processCol_stateOk (n : Nat) (baseNames : List String)
    (target : Table) (col : String) (b b2 : Build)
    (hwf : ∀ c ∈ target, (c.2 : List Cell).length = n) (hb : StateOk n b)
    (hok : processCol baseNames target b col = Except.ok b2) :
    StateOk n b2 := by
  have hm := matchVals_mem_length target col n hwf
  rcases processCol_cases _ _ _ _ _ hok with ⟨_, hcase⟩ | ⟨_, hadd⟩
  · rcases hcase with ⟨_, rfl⟩ | ⟨vs, hvs, rfl⟩
    · exact setCol_stateOk n b col [] hb (Or.inl rfl)
    · exact setCol_stateOk n b col vs hb (Or.inr (hm vs (by rw [hvs]; simp)))
  · exact addInstances_stateOk n col _ hm _ b b2 hb hadd

lemma processCol_idxLen_eq (n : Nat) (baseNames : List String)
    (target : Table) (col : String) (b b2 : Build)
    (hwf : ∀ c ∈ target, (c.2 : List Cell).length = n) (hb : b.idxLen = n)
    (hok : processCol baseNames target b col = Except.ok b2) :
    b2.idxLen = n := by
  have hm := matchVals_mem_length target col n hwf
  rcases processCol_cases _ _ _ _ _ hok with ⟨_, hcase⟩ | ⟨_, hadd⟩
  · rcases hcase with ⟨_, rfl⟩ | ⟨vs, hvs, rfl⟩
    · exact setCol_idxLen_eq n b col [] hb (Or.inl rfl)
    · exact setCol_idxLen_eq n b col vs hb (Or.inr (hm vs (by rw [hvs]; simp)))
  · exact addInstances_idxLen_eq n col _ hm _ b b2 hb hadd

/-- Processing a base column that does occur in the target (with `n ≠ 0`
target rows) leaves the frame index at `n` rows. -/
lemma processCol_idx_set (n : Nat) (baseNames : List String)
    (target : Table) (col : String) (b b2 : Build)
    (hwf : ∀ c ∈ target, (c.2 : List Cell).length = n) (hb : StateOk n b)
    (hcnt : 1 ≤ baseNames.count col)
    (htgt : col ∈ colNames target) (hn : n ≠ 0)
    (hok : processCol baseNames target b col = Except.ok b2) :
    b2.idxLen = n := by
  have hm := matchVals_mem_length target col n hwf
  have hne := matchVals_ne_nil target col htgt
  rcases processCol_cases _ _ _ _ _ hok with ⟨_, hcase⟩ | ⟨h1, hadd⟩
  · rcases hcase with ⟨hnil, rfl⟩ | ⟨vs, hvs, rfl⟩
    · exact absurd hnil hne
    · exact setCol_idxLen_copy n b col vs hb (hm vs (by rw [hvs]; simp)) hn
  · cases hk : baseNames.count col with
    | zero => omega
    | succ k =>
      rw [hk, List.range_succ_eq_map] at hadd
      exact addInstances_idx_set n col _ hm hne hn _ b b2 hb hadd

lemma processCol_names (baseNames : List String) (target : Table)
    (col : String) (b b2 : Build)
    (hfresh : ∀ k ∈ schemeOf baseNames col, k ∉ colNames b.cols)
    (hnodup : (schemeOf baseNames col).Nodup)
    (hok : processCol baseNames target b col = Except.ok b2) :
    colNames b2.cols = colNames b.cols ++ schemeOf baseNames col := by
  rcases processCol_cases _ _ _ _ _ hok with ⟨h1, hcase⟩ | ⟨h1, hadd⟩
  · have hsch : schemeOf baseNames col = [col] := by
      rw [schemeOf, if_pos h1]
    rw [hsch]
    have hf : col ∉ colNames b.cols :=
      hfresh col (by rw [hsch]; exact List.mem_cons_self _ _)
    rcases hcase with ⟨_, rfl⟩ | ⟨vs, _, rfl⟩
    · exact colNames_setCol_of_not_mem _ _ _ hf
    · exact colNames_setCol_of_not_mem _ _ _ hf
  · have hsch : schemeOf baseNames col
        = (List.range (baseNames.count col)).map (fun i => instKey col i) := by
      rw [schemeOf, if_neg h1]
    rw [hsch]
    refine addInstances_names col _ _ b b2 ?_ ?_ hadd
    · intro i hi
      exact hfresh _ (by rw [hsch]; exact List.mem_map_of_mem _ hi)
    · rw [← hsch]; exact hnodup

lemma processCol_mem_names (baseNames : List String) (target : Table)
    (col : String) (b b2 : Build) (x : String) (hx : x ∈ colNames b.cols)
    (hok : processCol baseNames target b col = Except.ok b2) :
    x ∈ colNames b2.cols := by
  rcases processCol_cases _ _ _ _ _ hok with ⟨_, hcase⟩ | ⟨_, hadd⟩
  · rcases hcase with ⟨_, rfl⟩ | ⟨vs, _, rfl⟩
    · exact mem_colNames_setCol_old _ _ _ _ hx
    · exact mem_colNames_setCol_old _ _ _ _ hx
  · exact addInstances_mem_names col _ _ b b2 x hx hadd

lemma processCol_assigned (baseNames : List String) (target : Table)
    (col : String) (b b2 : Build)
    (hok : processCol baseNames target b col = Except.ok b2) :
    ∀ k ∈ schemeOf baseNames col, k ∈ colNames b2.cols := by
  intro k hk
  rcases processCol_cases _ _ _ _ _ hok with ⟨h1, hcase⟩ | ⟨h1, hadd⟩
  · have hsch : schemeOf baseNames col = [col] := by rw [schemeOf, if_pos h1]
    rw [hsch] at hk
    have : k = col := by simpa using hk
    subst this
    rcases hcase with ⟨_, rfl⟩ | ⟨vs, _, rfl⟩
    · exact mem_colNames_setCol_key _ _ _
    · exact mem_colNames_setCol_key _ _ _
  · have hsch : schemeOf baseNames col
        = (List.range (baseNames.count col)).map (fun i => instKey col i) := by
      rw [schemeOf, if_neg h1]
    rw [hsch] at hk
    obtain ⟨i, hi, rfl⟩ := List.mem_map.mp hk
    exact addInstances_assigned col _ _ b b2 hadd i hi

lemma processCol_ok_of (baseNames : List String) (target : Table)
    (col : String) (b : Build)
    (hle : (colNames target).count col ≤ 1) :
    ∃ b2, processCol baseNames target b col = Except.ok b2 := by
  have hlen : (matchVals target col).length ≤ 1 := by
    rw [matchVals_length]; exact hle
  rw [processCol_eq]
  by_cases h1 : baseNames.count col = 1
  · rw [if_pos h1]
    cases hm : matchVals target col with
    | nil => exact ⟨_, rfl⟩
    | cons v rest =>
      cases rest with
      | nil => exact ⟨_, rfl⟩
      | cons v2 r2 => rw [hm] at hlen; simp at hlen
  · rw [if_neg h1]
    exact addInstances_ok_of_le col _ hlen _ b

lemma processCol_err_of (baseNames : List String) (target : Table)
    (col : String) (b : Build) (hcnt : 1 ≤ baseNames.count col)
    (h2 : 2 ≤ (colNames target).count col) :
    processCol baseNames target b col = Except.error PdError.valueError := by
  have hlen : 2 ≤ (matchVals target col).length := by
    rw [matchVals_length]; exact h2
  rw [processCol_eq]
  by_cases h1 : baseNames.count col = 1
  · rw [if_pos h1]
    cases hm : matchVals target col with
    | nil => rw [hm] at hlen; simp at hlen
    | cons v rest =>
      cases rest with
      | nil => rw [hm] at hlen; simp at hlen
      | cons v2 r2 => rfl
  · rw [if_neg h1]
    cases hk : baseNames.count col with
    | zero => omega
    | succ k =>
      rw [List.range_succ_eq_map]
      exact addInstances_err col _ hlen _ b

/-! ### Preservation of all-missing columns -/

lemma findCol_map_reindex (cols : Table) (L : Nat) (k : String) :
    findCol (cols.map (fun c => (c.1, reindexList c.2 L))) k
      = (findCol cols k).map (fun u => reindexList u L) := by
  induction cols with
  | nil => simp [findCol]
  | cons c rest ih =>
    by_cases h : c.1 = k
    · simp [findCol, h]
    · simp [findCol, h, ih]

lemma setCol_keepNone (b : Build) (key k2 : String) (vs u : List Cell)
    (hne : ¬ key = k2) (hfind : findCol b.cols k2 = some u)
    (hu : ∀ x ∈ u, x = none) :
    ∃ u2, findCol (setCol b key vs).cols k2 = some u2 ∧
      ∀ x ∈ u2, x = none := by
  rw [setCol_cols]
  by_cases hg : b.idxLen = 0 ∧ vs.length ≠ 0
  · rw [if_pos hg, findCol_upsert_ne _ _ _ _ hne, findCol_map_reindex, hfind]
    exact ⟨_, rfl, reindexList_allNone _ _ hu⟩
  · rw [if_neg hg, findCol_upsert_ne _ _ _ _ hne, hfind]
    exact ⟨u, rfl, hu⟩

lemma setCol_fill (b : Build) (key : String) :
    ∃ u, findCol (setCol b key []).cols key = some u ∧
      ∀ x ∈ u, x = none := by
  rw [setCol_cols]
  have hg : ¬ (b.idxLen = 0 ∧ ([] : List Cell).length ≠ 0) := by simp
  rw [if_neg hg, findCol_upsert_self]
  exact ⟨_, rfl, reindexList_allNone _ _ (by simp)⟩

lemma addInstances_keepNone (col : String) (m : List (List Cell)) :
    ∀ (is : List Nat) (b b2 : Build) (k2 : String) (u : List Cell),
      (∀ i ∈ is, ¬ instKey col i = k2) →
      findCol b.cols k2 = some u → (∀ x ∈ u, x = none) →
      addInstances col m is b = Except.ok b2 →
      ∃ u2, findCol b2.cols k2 = some u2 ∧ ∀ x ∈ u2, x = none := by
  intro is
  induction is with
  | nil =>
    intro b b2 k2 u _ hfind hu hok
    rw [addInstances_nil_ok col m b b2 hok]
    exact ⟨u, hfind, hu⟩
  | cons i rest ih =>
    intro b b2 k2 u hne hfind hu hok
    obtain ⟨vs, _, hok2⟩ := addInstances_cons _ _ _ _ _ _ hok
    obtain ⟨u2, hf2, hu2⟩ := setCol_keepNone b (instKey col i) k2 vs u
      (hne i (List.mem_cons_self _ _)) hfind hu
    exact ih _ b2 k2 u2 (fun j hj => hne j (List.mem_cons_of_mem _ hj))
      hf2 hu2 hok2

/-- Positions past the available target instances are filled with
all-missing columns, and stay all-missing to the end of the loop. -/
lemma addInstances_fill (col : String) (m : List (List Cell)) :
    ∀ (is : List Nat) (b b2 : Build),
      (is.map (instKey col)).Nodup →
      addInstances col m is b = Except.ok b2 →
      ∀ i ∈ is, m.length ≤ i →
      ∃ u, findCol b2.cols (instKey col i) = some u ∧
        ∀ x ∈ u, x = none := by
  intro is
  induction is with
  | nil => intro b b2 _ _ i hi; simp at hi
  | cons j rest ih =>
    intro b b2 hnodup hok i hi hile
    obtain ⟨vs, hvs, hok2⟩ := addInstances_cons _ _ _ _ _ _ hok
    have hnd : (∀ x ∈ rest, ¬ instKey col x = instKey col j) ∧
        (rest.map (instKey col)).Nodup := by simpa using hnodup
    rcases List.mem_cons.mp hi with h | h
    · subst h
      have hvnil : vs = [] := by
        rcases hvs with ⟨_, h2⟩ | ⟨hlt, _⟩
        · exact h2
        · omega
      subst hvnil
      obtain ⟨u, hf, hu⟩ := setCol_fill b (instKey col i)
      refine addInstances_keepNone col m rest _ b2 _ u ?_ hf hu hok2
      intro j2 hj2 heq
      exact hnd.1 j2 hj2 heq
    · exact ih _ _ hnd.2 hok2 i h hile

lemma processCol_keepNone (baseNames : List String) (target : Table)
    (col : String) (b b2 : Build) (k2 : String) (u : List Cell)
    (hne : ∀ k ∈ schemeOf baseNames col, ¬ k = k2)
    (hfind : findCol b.cols k2 = some u) (hu : ∀ x ∈ u, x = none)
    (hok : processCol baseNames target b col = Except.ok b2) :
    ∃ u2, findCol b2.cols k2 = some u2 ∧ ∀ x ∈ u2, x = none := by
  rcases processCol_cases _ _ _ _ _ hok with ⟨h1, hcase⟩ | ⟨h1, hadd⟩
  · have hnecol : ¬ col = k2 :=
      hne col (by rw [schemeOf, if_pos h1]; exact List.mem_cons_self _ _)
    rcases hcase with ⟨_, rfl⟩ | ⟨vs, _, rfl⟩
    · exact setCol_keepNone b col k2 [] u hnecol hfind hu
    · exact setCol_keepNone b col k2 vs u hnecol hfind hu
  · refine addInstances_keepNone col _ _ b b2 k2 u ?_ hfind hu hadd
    intro i hi
    exact hne _ (by rw [schemeOf, if_neg h1]; exact List.mem_map_of_mem _ hi)

/-- A single-instance base column absent from the target is created as an
all-missing column. -/
lemma processCol_fill_single (baseNames : List String) (target : Table)
    (col : String) (b b2 : Build)
    (hnil : matchVals target col = [])
    (hok : processCol baseNames target b col = Except.ok b2) :
    1 ≤ baseNames.count col → baseNames.count col = 1 →
    ∃ u, findCol b2.cols col = some u ∧ ∀ x ∈ u, x = none := by
  intro _ h1
  rcases processCol_cases _ _ _ _ _ hok with ⟨_, hcase⟩ | ⟨h1b, _⟩
  · rcases hcase with ⟨_, rfl⟩ | ⟨vs, hvs, rfl⟩
    · exact setCol_fill b col
    · rw [hvs] at hnil; cases hnil
  · exact absurd h1 h1b

/-- For a multi-instance base column, every position past the available
target instances is created as an all-missing column. -/
lemma processCol_fill_multi (baseNames : List String) (target : Table)
    (col : String) (b b2 : Build)
    (h2 : 2 ≤ baseNames.count col)
    (hnodup : (schemeOf baseNames col).Nodup)
    (hok : processCol baseNames target b col = Except.ok b2) :
    ∀ i, (colNames target).count col ≤ i → i < baseNames.count col →
      ∃ u, findCol b2.cols (instKey col i) = some u ∧
        ∀ x ∈ u, x = none := by
  intro i hge hlt
  have h1 : ¬ baseNames.count col = 1 := by omega
  rcases processCol_cases _ _ _ _ _ hok with ⟨h1b, _⟩ | ⟨_, hadd⟩
  · exact absurd h1b h1
  · refine addInstances_fill col _ _ b b2 ?_ hadd i (List.mem_range.mpr hlt) ?_
    · have hsch : schemeOf baseNames col
          = (List.range (baseNames.count col)).map (fun j => instKey col j) := by
        rw [schemeOf, if_neg h1]
      rw [hsch] at hnodup
      exact hnodup
    · rw [matchVals_length]; exact hge

/-! ### The main build loop -/

lemma buildCols_nil_ok (baseNames : List String) (target : Table)
    (b b2 : Build)
    (hok : buildCols baseNames target [] b = Except.ok b2) : b2 = b := by
  simp only [buildCols] at hok
  exact (Except.ok.inj hok).symm

lemma buildCols_cons (baseNames : List String) (target : Table)
    (col : String) (rest : List String) (b b2 : Build)
    (hok : buildCols baseNames target (col :: rest) b = Except.ok b2) :
    ∃ bmid, processCol baseNames target b col = Except.ok bmid ∧
      buildCols baseNames target rest bmid = Except.ok b2 := by
  simp only [buildCols] at hok
  cases hp : processCol baseNames target b col with
  | ok bmid => rw [hp] at hok; exact ⟨bmid, rfl, hok⟩
  | error e => rw [hp] at hok; cases hok

lemma buildCols_cons_err (baseNames : List String) (target : Table)
    (col : String) (rest : List String) (b : Build) (e : PdError)
    (hp : processCol baseNames target b col = Except.error e) :
    buildCols baseNames target (col :: rest) b = Except.error e := by
  simp only [buildCols]
  rw [hp]

lemma buildCols_cons_ok (baseNames : List String) (target : Table)
    (col : String) (rest : List String) (b bmid : Build)
    (hp : processCol baseNames target b col = Except.ok bmid) :
    buildCols baseNames target (col :: rest) b
      = buildCols baseNames target rest bmid := by
  simp only [buildCols]
  rw [hp]

lemma buildCols_stateOk (n : Nat) (baseNames : List String) (target : Table)
    (hwf : ∀ c ∈ target, (c.2 : List Cell).length = n) :
    ∀ (cols : List String) (b b2 : Build), StateOk n b →
      buildCols baseNames target cols b = Except.ok b2 → StateOk n b2 := by
  intro cols
  induction cols with
  | nil =>
    intro b b2 hb hok
    rw [buildCols_nil_ok _ _ _ _ hok]; exact hb
  | cons col rest ih =>
    intro b b2 hb hok
    obtain ⟨bmid, hp, hrest⟩ := buildCols_cons _ _ _ _ _ _ hok
    exact ih bmid b2 (processCol_stateOk n _ _ _ _ _ hwf hb hp) hrest

lemma buildCols_idxLen_eq (n : Nat) (baseNames : List String)
    (target : Table)
    (hwf : ∀ c ∈ target, (c.2 : List Cell).length = n) :
    ∀ (cols : List String) (b b2 : Build), b.idxLen = n →
      buildCols baseNames target cols b = Except.ok b2 → b2.idxLen = n := by
  intro cols
  induction cols with
  | nil =>
    intro b b2 hb hok
    rw [buildCols_nil_ok _ _ _ _ hok]; exact hb
  | cons col rest ih =>
    intro b b2 hb hok
    obtain ⟨bmid, hp, hrest⟩ := buildCols_cons _ _ _ _ _ _ hok
    exact ih bmid b2 (processCol_idxLen_eq n _ _ _ _ _ hwf hb hp) hrest

/-- If some processed base column occurs in the target (and the target has
`n ≠ 0` rows), the finished frame index has `n` rows. -/
lemma buildCols_idx_set (n : Nat) (baseNames : List String) (target : Table)
    (hwf : ∀ c ∈ target, (c.2 : List Cell).length = n) (hn : n ≠ 0) :
    ∀ (cols : List String) (b b2 : Build), StateOk n b →
      (∀ c ∈ cols, 1 ≤ baseNames.count c) →
      (∃ c, c ∈ cols ∧ c ∈ colNames target) →
      buildCols baseNames target cols b = Except.ok b2 → b2.idxLen = n := by
  intro cols
  induction cols with
  | nil =>
    intro b b2 _ _ hex _
    obtain ⟨c, hc, _⟩ := hex
    simp at hc
  | cons col rest ih =>
    intro b b2 hb hcnt hex hok
    obtain ⟨bmid, hp, hrest⟩ := buildCols_cons _ _ _ _ _ _ hok
    obtain ⟨c, hc, htgt⟩ := hex
    rcases List.mem_cons.mp hc with rfl | h
    · have hmid : bmid.idxLen = n :=
        processCol_idx_set n _ _ _ _ _ hwf hb
          (hcnt c (List.mem_cons_self _ _)) htgt hn hp
      exact buildCols_idxLen_eq n _ _ hwf rest bmid b2 hmid hrest
    · exact ih bmid b2 (processCol_stateOk n _ _ _ _ _ hwf hb hp)
        (fun c2 hc2 => hcnt c2 (List.mem_cons_of_mem _ hc2)) ⟨c, h, htgt⟩ hrest

lemma buildCols_names (baseNames : List String) (target : Table) :
    ∀ (cols : List String) (b b2 : Build),
      (∀ k ∈ cols.flatMap (schemeOf baseNames), k ∉ colNames b.cols) →
      (cols.flatMap (schemeOf baseNames)).Nodup →
      buildCols baseNames target cols b = Except.ok b2 →
      colNames b2.cols
        = colNames b.cols ++ cols.flatMap (schemeOf baseNames) := by
  intro cols
  induction cols with
  | nil =>
    intro b b2 _ _ hok
    rw [buildCols_nil_ok _ _ _ _ hok]; simp
  | cons col rest ih =>
    intro b b2 hfresh hnodup hok
    obtain ⟨bmid, hp, hrest⟩ := buildCols_cons _ _ _ _ _ _ hok
    rw [List.flatMap_cons] at hfresh hnodup ⊢
    have hsplit := List.nodup_append.mp hnodup
    have hn1 : colNames bmid.cols = colNames b.cols ++ schemeOf baseNames col :=
      processCol_names _ _ _ _ _
        (fun k hk => hfresh k (List.mem_append_left _ hk)) hsplit.1 hp
    have hfresh2 : ∀ k ∈ rest.flatMap (schemeOf baseNames),
        k ∉ colNames bmid.cols := by
      intro k hk hmem
      rw [hn1] at hmem
      rcases List.mem_append.mp hmem with h2 | h2
      · exact hfresh k (List.mem_append_right _ hk) h2
      · exact hsplit.2.2 h2 hk
    have hres := ih bmid b2 hfresh2 hsplit.2.1 hrest
    rw [hres, hn1, List.append_assoc]

lemma buildCols_mem_names (baseNames : List String) (target : Table) :
    ∀ (cols : List String) (b b2 : Build) (x : String),
      x ∈ colNames b.cols →
      buildCols baseNames target cols b = Except.ok b2 →
      x ∈ colNames b2.cols := by
  intro cols
  induction cols with
  | nil =>
    intro b b2 x hx hok
    rw [buildCols_nil_ok _ _ _ _ hok]; exact hx
  | cons col rest ih =>
    intro b b2 x hx hok
    obtain ⟨bmid, hp, hrest⟩ := buildCols_cons _ _ _ _ _ _ hok
    exact ih bmid b2 x (processCol_mem_names _ _ _ _ _ x hx hp) hrest

lemma buildCols_assigned (baseNames : List String) (target : Table) :
    ∀ (cols : List String) (b b2 : Build) (col : String), col ∈ cols →
      buildCols baseNames target cols b = Except.ok b2 →
      ∀ k ∈ schemeOf baseNames col, k ∈ colNames b2.cols := by
  intro cols
  induction cols with
  | nil => intro b b2 col hc; simp at hc
  | cons col0 rest ih =>
    intro b b2 col hc hok k hk
    obtain ⟨bmid, hp, hrest⟩ := buildCols_cons _ _ _ _ _ _ hok
    rcases List.mem_cons.mp hc with rfl | h
    · exact buildCols_mem_names _ _ rest bmid b2 k
        (processCol_assigned _ _ _ _ _ hp k hk) hrest
    · exact ih bmid b2 col h hrest k hk

lemma buildCols_ok_of (baseNames : List String) (target : Table) :
    ∀ (cols : List String) (b : Build),
      (∀ col ∈ cols, (colNames target).count col ≤ 1) →
      ∃ b2, buildCols baseNames target cols b = Except.ok b2 := by
  intro cols
  induction cols with
  | nil => intro b _; exact ⟨b, rfl⟩
  | cons col rest ih =>
    intro b hle
    obtain ⟨bmid, hp⟩ := processCol_ok_of baseNames target col b
      (hle col (List.mem_cons_self _ _))
    obtain ⟨b2, hrest⟩ := ih bmid
      (fun c hc => hle c (List.mem_cons_of_mem _ hc))
    exact ⟨b2, by rw [buildCols_cons_ok _ _ _ _ _ _ hp]; exact hrest⟩

lemma buildCols_err_of (baseNames : List String) (target : Table) :
    ∀ (cols : List String) (b : Build),
      (∀ c ∈ cols, 1 ≤ baseNames.count c) →
      (∃ c, c ∈ cols ∧ 2 ≤ (colNames target).count c) →
      ∃ e, buildCols baseNames target cols b = Except.error e := by
  intro cols
  induction cols with
  | nil =>
    intro b _ hex
    obtain ⟨c, hc, _⟩ := hex
    simp at hc
  | cons col rest ih =>
    intro b hcnt hex
    by_cases h2 : 2 ≤ (colNames target).count col
    · refine ⟨PdError.valueError, ?_⟩
      exact buildCols_cons_err _ _ _ _ _ _
        (processCol_err_of _ _ _ _ (hcnt col (List.mem_cons_self _ _)) h2)
    · obtain ⟨bmid, hp⟩ := processCol_ok_of baseNames target col b (by omega)
      obtain ⟨c, hc, hc2⟩ := hex
      have hcr : c ∈ rest := by
        rcases List.mem_cons.mp hc with rfl | h
        · omega
        · exact h
      obtain ⟨e, herr⟩ := ih bmid
        (fun c2 hc2b => hcnt c2 (List.mem_cons_of_mem _ hc2b)) ⟨c, hcr, hc2⟩
      exact ⟨e, by rw [buildCols_cons_ok _ _ _ _ _ _ hp]; exact herr⟩

lemma buildCols_keepNone (baseNames : List String) (target : Table) :
    ∀ (cols : List String) (b b2 : Build) (k2 : String) (u : List Cell),
      (∀ col ∈ cols, ∀ k ∈ schemeOf baseNames col, ¬ k = k2) →
      findCol b.cols k2 = some u → (∀ x ∈ u, x = none) →
      buildCols baseNames target cols b = Except.ok b2 →
      ∃ u2, findCol b2.cols k2 = some u2 ∧ ∀ x ∈ u2, x = none := by
  intro cols
  induction cols with
  | nil =>
    intro b b2 k2 u _ hfind hu hok
    rw [buildCols_nil_ok _ _ _ _ hok]
    exact ⟨u, hfind, hu⟩
  | cons col rest ih =>
    intro b b2 k2 u hne hfind hu hok
    obtain ⟨bmid, hp, hrest⟩ := buildCols_cons _ _ _ _ _ _ hok
    obtain ⟨u2, hf2, hu2⟩ := processCol_keepNone _ _ _ _ _ _ _
      (hne col (List.mem_cons_self _ _)) hfind hu hp
    exact ih bmid b2 k2 u2
      (fun c hc => hne c (List.mem_cons_of_mem _ hc)) hf2 hu2 hrest

/-- Across the whole loop: missing instances of a processed base column
give all-missing output columns (assuming the generated keys collide
nowhere). -/
lemma buildCols_fill (baseNames : List String) (target : Table) :
    ∀ (cols : List String) (b b2 : Build),
      (cols.flatMap (schemeOf baseNames)).Nodup →
      buildCols baseNames target cols b = Except.ok b2 →
      ∀ col ∈ cols,
        ((baseNames.count col = 1 ∧ matchVals target col = []) →
          ∃ u, findCol b2.cols col = some u ∧ ∀ x ∈ u, x = none) ∧
        (2 ≤ baseNames.count col →
          ∀ i, (colNames target).count col ≤ i →
            i < baseNames.count col →
            ∃ u, findCol b2.cols (instKey col i) = some u ∧
              ∀ x ∈ u, x = none) := by
  intro cols
  induction cols with
  | nil => intro b b2 _ _ col hc; simp at hc
  | cons col0 rest ih =>
    intro b b2 hnodup hok col hc
    obtain ⟨bmid, hp, hrest⟩ := buildCols_cons _ _ _ _ _ _ hok
    rw [List.flatMap_cons] at hnodup
    have hsplit := List.nodup_append.mp hnodup
    rcases List.mem_cons.mp hc with rfl | h
    · constructor
      · rintro ⟨h1, hnil⟩
        obtain ⟨u, hf, hu⟩ :=
          processCol_fill_single _ _ _ _ _ hnil hp (by omega) h1
        refine buildCols_keepNone _ _ rest bmid b2 col u ?_ hf hu hrest
        intro c hcr k hk heq
        have hkc : col ∈ rest.flatMap (schemeOf baseNames) := by
          rw [← heq]
          exact List.mem_flatMap.mpr ⟨c, hcr, hk⟩
        have hcol : col ∈ schemeOf baseNames col := by
          rw [schemeOf, if_pos h1]
          exact List.mem_cons_self _ _
        exact hsplit.2.2 hcol hkc
      · intro h2 i hge hlt
        obtain ⟨u, hf, hu⟩ :=
          processCol_fill_multi _ _ _ _ _ h2 hsplit.1 hp i hge hlt
        refine buildCols_keepNone _ _ rest bmid b2 _ u ?_ hf hu hrest
        intro c hcr k hk heq
        have hkc : instKey col i ∈ rest.flatMap (schemeOf baseNames) := by
          rw [← heq]
          exact List.mem_flatMap.mpr ⟨c, hcr, hk⟩
        have hcol : instKey col i ∈ schemeOf baseNames col := by
          rw [schemeOf, if_neg (by omega)]
          exact List.mem_map_of_mem _ (List.mem_range.mpr hlt)
        exact hsplit.2.2 hcol hkc
    · exact ih bmid b2 hsplit.2.1 hrest col h

/-- Claim C8: `remove_column_numbering` changes only the column names; the
number of columns, their order, and every cell value are left exactly as
in the input (the data sequence of the `i`-th column is unchanged, and the
`i`-th name is the normalization of the `i`-th input name). -/
theorem claim_C8 (t : Table) :
    (remove_column_numbering t).map Prod.snd = t.map Prod.snd ∧
    colNames (remove_column_numbering t) = (colNames t).map subDotNumEnd ∧
    (remove_column_numbering t).length = t.length :=
  ⟨rcn_map_snd t, rcn_names t, rcn_length t⟩

/-! ### Claims about the build loop -/

/-- Extract the pre-normalization build from a successful
`standardize_data` run. -/
lemma standardize_data_ok_elim (base target : Table) (out : Table)
    (hok : (standardize_data base target).2 = Except.ok out) :
    ∃ b2, standardize_pre base target = Except.ok b2 ∧
      out = remove_column_numbering b2.cols := by
  have hok2 : (standardize_pre base target).map
      (fun b => remove_column_numbering b.cols) = Except.ok out := hok
  cases hsp : standardize_pre base target with
  | ok b2 =>
    rw [hsp] at hok2
    have h3 : remove_column_numbering b2.cols = out := Except.ok.inj hok2
    exact ⟨b2, rfl, h3.symm⟩
  | error e => rw [hsp] at hok2; cases hok2

/-- Claim C1 (amended): provided the generated key scheme is collision-free
— no base name equals another generated key, e.g. no base column is
literally named `"B_1"` next to a duplicated base column `"B"` — a
successful run pre-normalization column names are exactly the scheme
keys: for each unique base name in first-occurrence order, the bare name
when its count is 1, else `name_1 .. name_k`; in particular each base name
with count `k` contributes `k` columns, independently of the target
column order. -/
theorem claim_C1 (base target : Table) (b2 : Build)
    (hnodup : (schemeKeys (colNames base)).Nodup)
    (hok : standardize_pre base target = Except.ok b2) :
    colNames b2.cols = schemeKeys (colNames base) := by
  have h := buildCols_names (colNames base) target
    (uniqueColumns (colNames base)) ⟨0, []⟩ b2
    (fun k _ hmem => by simp [colNames] at hmem) hnodup hok
  simpa [colNames, schemeKeys] using h

/-- Claim C1 counterexample: with base columns `["B", "B", "B_1"]` (three
columns, so the claim demands three pre-normalization output columns, as
`schemeKeys` records) and an empty target, the run succeeds but produces
only two columns: the key `"B_1"` generated for the first `"B"` instance
is later overwritten by the base column literally named `"B_1"`. -/
theorem claim_C1_cex :
    (standardize_pre [("B", [some "u"]), ("B", [some "v"]),
        ("B_1", [some "w"])] []).map (fun b => (colNames b.cols).length)
      = Except.ok 2
  ∧ (schemeKeys (colNames [("B", [some "u"]), ("B", [some "v"]),
        ("B_1", [some "w"])])).length = 3 := ⟨rfl, rfl⟩

/-- Witness for the amended C1 at a concrete collision-free base. -/
theorem claim_C1_witness :
    colNames (⟨1, [("A", [none]), ("B_1", [some "t"]),
        ("B_2", [none])]⟩ : Build).cols
      = schemeKeys (colNames [("A", [some "x"]), ("B", [some "y"]),
        ("B", [some "z"])]) :=
  claim_C1 [("A", [some "x"]), ("B", [some "y"]), ("B", [some "z"])]
    [("B", [some "t"])] _ (by decide) rfl

/-- Claim C3 (amended): when every target column has `n` cells, every
column of a successfully standardized output has `n` cells as well —
including generated empty columns, which carry one missing cell per target
row, and even when the *first* processed base column is absent from the
target — provided at least one base column name occurs in the target (or
the target has no rows).  Without that proviso the output columns are
empty: the frame row index is never established (see the
counterexample). -/
theorem claim_C3 (base target : Table) (n : Nat) (out : Table)
    (hwf : ∀ c ∈ target, (c.2 : List Cell).length = n)
    (hex : (∃ col, col ∈ colNames base ∧ col ∈ colNames target) ∨ n = 0)
    (hok : (standardize_data base target).2 = Except.ok out) :
    ∀ c ∈ out, (c.2 : List Cell).length = n := by
  obtain ⟨b2, hpre, hout⟩ := standardize_data_ok_elim base target out hok
  have hstate : StateOk n b2 :=
    buildCols_stateOk n _ _ hwf _ _ _ (stateOk_start n) hpre
  have hlen : ∀ c ∈ b2.cols, (c.2 : List Cell).length = n := by
    by_cases hn : n = 0
    · subst hn
      rcases hstate with ⟨_, hcols⟩ | ⟨_, hcols⟩
      · intro c hc; rw [hcols c hc]; rfl
      · exact hcols
    · rcases hex with ⟨col, hbase, htgt⟩ | hzero
      · have hidx : b2.idxLen = n :=
          buildCols_idx_set n _ _ hwf hn _ _ _ (stateOk_start n)
            (fun c hc => count_pos_of_mem _ _ ((mem_uniqueColumns _ _).mp hc))
            ⟨col, (mem_uniqueColumns _ _).mpr hbase, htgt⟩ hpre
        rcases hstate with ⟨hidx0, _⟩ | ⟨_, hcols⟩
        · omega
        · exact hcols
      · exact absurd hzero hn
  intro c hc
  rw [hout, remove_column_numbering_spec] at hc
  obtain ⟨c0, hc0, rfl⟩ := List.mem_map.mp hc
  exact hlen c0 hc0

/-- Claim C3 counterexample: when no base column occurs in the target, the
first (and every) assignment is an empty series, the frame row index is
never established, and the output has zero rows although the target has
one row — not one empty cell per target row as claimed. -/
theorem claim_C3_cex :
    (standardize_data [("A", [some "x"])] [("X", [some "x1"])]).2
      = Except.ok [("A", ([] : List Cell))]
  ∧ ([("X", [some "x1"])] : Table).map (fun c => (c.2 : List Cell).length)
      = [1] := ⟨rfl, rfl⟩

/-- Witness for the amended C3: base `["A", "B"]`, target has only `"B"`
with one row; the output `"A"` column is resurrected to one missing
cell. -/
theorem claim_C3_witness : (([none] : List Cell)).length = 1 :=
  claim_C3 [("A", [some "x0"]), ("B", [some "y0"])] [("B", [some "t1"])] 1
    [("A", [none]), ("B", [some "t1"])] (by decide)
    (Or.inl ⟨"B", by decide, by decide⟩) rfl ("A", [none]) (by decide)

/-- Claim C4: in a successful run, a base name with count 1 is assigned
under its bare name and a base name with count `k ≥ 2` under
`name_1 .. name_k`; the suffix normalization pass leaves these
underscore-number suffixes unchanged (it only strips dot-number suffixes),
so they appear in the final output table. -/
theorem claim_C4 (base target : Table) (b2 : Build)
    (hok : standardize_pre base target = Except.ok b2)
    (col : String) (hcol : col ∈ uniqueColumns (colNames base)) :
    (standardize_data base target).2
        = Except.ok (remove_column_numbering b2.cols)
  ∧ ((colNames base).count col = 1 → col ∈ colNames b2.cols)
  ∧ (2 ≤ (colNames base).count col →
      ∀ i, i < (colNames base).count col →
        instKey col i ∈ colNames b2.cols
        ∧ subDotNumEnd (instKey col i) = instKey col i
        ∧ instKey col i ∈ colNames (remove_column_numbering b2.cols)) := by
  have hassigned := buildCols_assigned (colNames base) target _ _ b2 col
    hcol hok
  refine ⟨?_, ?_, ?_⟩
  · show (standardize_pre base target).map
      (fun b => remove_column_numbering b.cols) = _
    rw [hok]
    rfl
  · intro h1
    exact hassigned col
      (by rw [schemeOf, if_pos h1]; exact List.mem_cons_self _ _)
  · intro h2 i hi
    have hke : instKey col i ∈ schemeOf (colNames base) col := by
      rw [schemeOf, if_neg (by omega)]
      exact List.mem_map_of_mem _ (List.mem_range.mpr hi)
    have hmem := hassigned _ hke
    have hsub : subDotNumEnd (instKey col i) = instKey col i :=
      subDotNumEnd_underscore col (i + 1)
    refine ⟨hmem, hsub, ?_⟩
    rw [rcn_names]
    have h3 := List.mem_map_of_mem subDotNumEnd hmem
    rw [hsub] at h3
    exact h3

/-- Witness for C4: base `["A", "B", "B"]`, target has one `"B"` column;
`"B_1"` is assigned and survives normalization. -/
theorem claim_C4_witness :
    instKey "B" 0 ∈ colNames (⟨1, [("A", [none]), ("B_1", [some "t"]),
      ("B_2", [none])]⟩ : Build).cols :=
  ((claim_C4 [("A", [some "x"]), ("B", [some "y"]), ("B", [some "z"])]
      [("B", [some "t"])] _ rfl "B" (by decide)).2.2
    (by decide) 0 (by decide)).1

/-! ### Shortages -/

/-- Membership in the recorded shortage list is exactly having strictly
fewer target instances than the base requires. -/
lemma mem_missing_iff (bn tn : List String) (col : String) (r a : Nat) :
    (col, r, a) ∈ missing_instances bn tn ↔
      (col ∈ bn ∧ r = bn.count col ∧ a = tn.count col ∧ a < r) := by
  unfold missing_instances
  rw [List.mem_filterMap]
  constructor
  · rintro ⟨c, hc, hf⟩
    by_cases hcond : tn.count c = 0 ∨ tn.count c < bn.count c
    · rw [if_pos hcond] at hf
      have h3 := Option.some.inj hf
      rw [Prod.mk.injEq, Prod.mk.injEq] at h3
      obtain ⟨rfl, rfl, rfl⟩ := h3
      have hmem := (mem_uniqueColumns _ _).mp hc
      have hcnt : 1 ≤ bn.count c := count_pos_of_mem _ _ hmem
      refine ⟨hmem, rfl, rfl, ?_⟩
      rcases hcond with h | h <;> omega
    · rw [if_neg hcond] at hf; cases hf
  · rintro ⟨hmem, rfl, rfl, hlt⟩
    refine ⟨col, (mem_uniqueColumns _ _).mpr hmem, ?_⟩
    rw [if_pos (Or.inr hlt)]

/-- Claim C7 counterexample: the unconditional claim that the run
"continues and fills the missing instances with empty columns" is false.
With base columns `["B", "B", "B_1"]` and a target holding only a
`"B_1"` column, a shortage `("B", 2, 0)` is recorded and the run
succeeds, but the output column `"B_1"` — the empty fill created for the
first missing `"B"` instance — is later overwritten by the base column
literally named `"B_1"` and ends up holding the copied value, not empty
cells. -/
theorem claim_C7_cex :
    (("B", 2, 0) ∈ (standardize_data
        [("B", [some "x"]), ("B", [some "y"]), ("B_1", [some "z"])]
        [("B_1", [some "v"])]).1)
  ∧ standardize_pre
        [("B", [some "x"]), ("B", [some "y"]), ("B_1", [some "z"])]
        [("B_1", [some "v"])]
      = Except.ok ⟨1, [("B_1", [some "v"]), ("B_2", [none])]⟩ :=
  ⟨by decide, rfl⟩

/-- Claim C7 (amended): (a) a shortage `(name, required, actual)` is
recorded exactly for the base names whose target instance count is absent
(zero) or strictly smaller than the base count; (b) a shortage never
causes an abort — the run aborts exactly when some base name is a
duplicated target label, a condition independent of any shortage; (c)
*provided the generated key scheme is collision-free*, a successful run
fills every missing instance with an all-missing column (with colliding
keys a later base column can overwrite the empty fill, see the
counterexample). -/
theorem claim_C7 (base target : Table) :
    (∀ col r a, (col, r, a) ∈ (standardize_data base target).1 ↔
        (col ∈ colNames base ∧ r = (colNames base).count col ∧
         a = (colNames target).count col ∧ a < r))
  ∧ ((standardize_data base target).2.isOk = true ↔
        ∀ col ∈ colNames base, (colNames target).count col ≤ 1)
  ∧ (∀ b2, standardize_pre base target = Except.ok b2 →
      (schemeKeys (colNames base)).Nodup →
      ∀ col ∈ colNames base,
        (colNames target).count col < (colNames base).count col →
        ((colNames base).count col = 1 →
          ∃ u, findCol b2.cols col = some u ∧ ∀ x ∈ u, x = none) ∧
        (2 ≤ (colNames base).count col →
          ∀ i, (colNames target).count col ≤ i →
            i < (colNames base).count col →
            ∃ u, findCol b2.cols (instKey col i) = some u ∧
              ∀ x ∈ u, x = none)) := by
  refine ⟨?_, ⟨?_, ?_⟩, ?_⟩
  · intro col r a
    exact mem_missing_iff (colNames base) (colNames target) col r a
  · intro hok
    by_contra hnot
    push_neg at hnot
    obtain ⟨col, hcol, hgt⟩ := hnot
    obtain ⟨e, herr⟩ := buildCols_err_of (colNames base) target
      (uniqueColumns (colNames base)) ⟨0, []⟩
      (fun c hc => count_pos_of_mem _ _ ((mem_uniqueColumns _ _).mp hc))
      ⟨col, (mem_uniqueColumns _ _).mpr hcol, by omega⟩
    have hdata : (standardize_data base target).2 = Except.error e := by
      show (standardize_pre base target).map
        (fun b => remove_column_numbering b.cols) = _
      rw [show standardize_pre base target = Except.error e from herr]
      rfl
    rw [hdata] at hok
    cases hok
  · intro hall
    obtain ⟨b2, hok2⟩ := buildCols_ok_of (colNames base) target
      (uniqueColumns (colNames base)) ⟨0, []⟩
      (fun col hc => hall col ((mem_uniqueColumns _ _).mp hc))
    have hdata : (standardize_data base target).2
        = Except.ok (remove_column_numbering b2.cols) := by
      show (standardize_pre base target).map
        (fun b => remove_column_numbering b.cols) = _
      rw [show standardize_pre base target = Except.ok b2 from hok2]
      rfl
    rw [hdata]
    rfl
  · intro b2 hok hnodup col hcol hlt
    have hcolu : col ∈ uniqueColumns (colNames base) :=
      (mem_uniqueColumns _ _).mpr hcol
    have hfill := buildCols_fill (colNames base) target _ _ b2 hnodup hok
      col hcolu
    constructor
    · intro h1
      refine hfill.1 ⟨h1, ?_⟩
      have hlen : (matchVals target col).length = 0 := by
        rw [matchVals_length]; omega
      exact List.length_eq_zero.mp hlen
    · intro h2 i hge hi
      exact hfill.2 h2 i hge hi

/-- Witness for C7: base `["A", "B", "B"]`, target has one `"B"` column —
shortages are recorded for `"A"` and `"B"`, the run succeeds, and the
missing second `"B"` instance is an all-missing column `"B_2"`. -/
theorem claim_C7_witness :
    (("A", 1, 0) ∈ (standardize_data [("A", [some "x"]), ("B", [some "y"]),
        ("B", [some "z"])] [("B", [some "t"])]).1)
  ∧ ((standardize_data [("A", [some "x"]), ("B", [some "y"]),
        ("B", [some "z"])] [("B", [some "t"])]).2.isOk = true)
  ∧ (∃ u, findCol [("A", [none]), ("B_1", [some "t"]), ("B_2", [none])]
        (instKey "B" 1) = some u ∧ ∀ x ∈ u, x = none) := by
  refine ⟨?_, ?_, ?_⟩
  · exact ((claim_C7 [("A", [some "x"]), ("B", [some "y"]), ("B", [some "z"])]
      [("B", [some "t"])]).1 "A" 1 0).mpr
      ⟨by decide, by decide, by decide, by decide⟩
  · exact ((claim_C7 [("A", [some "x"]), ("B", [some "y"]), ("B", [some "z"])]
      [("B", [some "t"])]).2.1).mpr (by decide)
  · exact ((claim_C7 [("A", [some "x"]), ("B", [some "y"]), ("B", [some "z"])]
      [("B", [some "t"])]).2.2 ⟨1, [("A", [none]), ("B_1", [some "t"]),
        ("B_2", [none])]⟩ rfl (by decide) "B" (by decide) (by decide)).2
      (by decide) 1 (by decide) (by decide)

/-! ### Target columns outside the base schema -/

lemma filter_filter_of_imp {α : Type} (p q : α → Bool) (l : List α)
    (h : ∀ x, p x = true → q x = true) :
    (l.filter q).filter p = l.filter p := by
  induction l with
  | nil => rfl
  | cons x rest ih =>
    by_cases hp : p x = true
    · have hq := h x hp
      simp [List.filter_cons, hp, hq, ih]
    · by_cases hq : q x = true
      · simp [List.filter_cons, hp, hq, ih]
      · simp [List.filter_cons, hp, hq, ih]

lemma colNames_filter_fst (t : Table) (q : String → Bool) :
    colNames (t.filter (fun c => q c.1)) = (colNames t).filter q := by
  induction t with
  | nil => rfl
  | cons c rest ih =>
    by_cases h : q c.1 = true <;>
      simp [List.filter_cons, colNames_cons, h, ih]

lemma matchVals_restrict (base target : Table) (col : String)
    (hcol : col ∈ colNames base) :
    matchVals (target.filter (fun c => decide (c.1 ∈ colNames base))) col
      = matchVals target col := by
  unfold matchVals
  rw [filter_filter_of_imp]
  intro c hc
  rw [decide_eq_true_eq] at hc ⊢
  rw [hc]
  exact hcol

lemma count_restrict (base target : Table) (col : String)
    (hcol : col ∈ colNames base) :
    (colNames (target.filter
        (fun c => decide (c.1 ∈ colNames base)))).count col
      = (colNames target).count col := by
  induction target with
  | nil => rfl
  | cons c rest ih =>
    by_cases h : c.1 ∈ colNames base
    · simp [List.filter_cons, h, colNames_cons, List.count_cons, ih]
    · have hne : ¬ c.1 = col := fun he => h (he ▸ hcol)
      simp [List.filter_cons, h, colNames_cons, List.count_cons, ih, hne]

lemma processCol_congr (baseNames : List String) (t1 t2 : Table)
    (b : Build) (col : String)
    (hm : matchVals t1 col = matchVals t2 col) :
    processCol baseNames t1 b col = processCol baseNames t2 b col := by
  rw [processCol_eq, processCol_eq, hm]

lemma buildCols_congr (baseNames : List String) (t1 t2 : Table) :
    ∀ (cols : List String) (b : Build),
      (∀ col ∈ cols, matchVals t1 col = matchVals t2 col) →
      buildCols baseNames t1 cols b = buildCols baseNames t2 cols b := by
  intro cols
  induction cols with
  | nil => intro b _; rfl
  | cons col rest ih =>
    intro b hm
    simp only [buildCols]
    rw [processCol_congr _ _ _ _ _ (hm col (List.mem_cons_self _ _))]
    cases hp : processCol baseNames t2 b col with
    | ok bmid =>
      exact ih bmid (fun c hc => hm c (List.mem_cons_of_mem _ hc))
    | error e => rfl

lemma missing_restrict (base target : Table) :
    missing_instances (colNames base)
      (colNames (target.filter (fun c => decide (c.1 ∈ colNames base))))
    = missing_instances (colNames base) (colNames target) := by
  unfold missing_instances
  refine List.filterMap_congr ?_
  intro col hc
  rw [count_restrict base target col ((mem_uniqueColumns _ _).mp hc)]

/-- Claim C9: target columns whose name is not a base column name are
silently dropped — deleting them from the target changes neither the
standardized output nor the shortage list, and every recorded shortage
names a base column. -/
theorem claim_C9 (base target : Table) :
    standardize_data base
        (target.filter (fun c => decide (c.1 ∈ colNames base)))
      = standardize_data base target
  ∧ (∀ col r a, (col, r, a) ∈ (standardize_data base target).1 →
      col ∈ colNames base) := by
  constructor
  · unfold standardize_data standardize_pre
    rw [missing_restrict base target,
      buildCols_congr (colNames base) _ target (uniqueColumns (colNames base))
        ⟨0, []⟩ (fun col hc =>
          matchVals_restrict base target col ((mem_uniqueColumns _ _).mp hc))]
  · intro col r a hmem
    exact ((mem_missing_iff _ _ _ _ _).mp hmem).1

/-- Witness for C9 at a concrete base/target pair with an unknown target
column `"X"`. -/
theorem claim_C9_witness :
    standardize_data [("A", [some "x"])]
        (([("X", [some "q"]), ("A", [some "a"])] : Table).filter
          (fun c => decide (c.1 ∈ colNames [("A", [some "x"])])))
      = standardize_data [("A", [some "x"])]
          [("X", [some "q"]), ("A", [some "a"])]
  ∧ "A" ∈ colNames [("A", [some "x"])] := by
  refine ⟨(claim_C9 _ _).1, ?_⟩
  exact (claim_C9 [("A", [some "x"])] [("X", [some "q"])]).2 "A" 1 0
    (by decide)

